import Mathlib

/-!
Shallow embedding of the DS18B20 1-Wire driver from
src/NetworkModule/DS18B20.c (NetMod-ServerApp repository).

Bytes are modelled as natural numbers kept below 256 by the same masking
operations the C source performs on its uint8_t values.  The global state
touched by the Maxim-derived search code (ROM, lastDiscrep, doneFlag,
FoundROM, numROMs) is threaded explicitly.  The C source declares
uint8_t ROM[8] but the validation step in Next reads ROM[8], one cell past
the declared array; following the specification, which speaks of a stored
9th (CRC) byte, the embedding models ROM as a 9-cell buffer whose final
cell is zero-initialized (like every other global) and is never written by
the search loop.

The 1-Wire bus is simulated as a list of device identifiers (8 bytes
each).  During a search pass a device participates until a master write
disagrees with its own bit; a bit read returns the wired-AND of the
participating devices' outputs, so the line reads 1 when no participant
pulls it low (in particular when no devices participate at all).
-/

namespace DS18B20

/-- Inner loop body of dallas_crc8: one round of the 8-round per-byte
mix; state is the pair (crc, inbyte). -/
def crc8_round (p : Nat × Nat) : Nat × Nat :=
  let mix := (p.1 ^^^ p.2) &&& 0x01
  let crc := p.1 >>> 1
  let crc := if mix ≠ 0 then crc ^^^ 0x8C else crc
  (crc, p.2 >>> 1)

/-- Processing of one input byte by dallas_crc8 (the j-loop of the C
source): eight rounds of crc8_round starting from (crc, inbyte). -/
def crc8_byte (crc inbyte : Nat) : Nat :=
  ((List.range 8).foldl (fun p _ => crc8_round p) (crc, inbyte)).1

/-- Embedding of dallas_crc8(data, size): the C function folds crc8_byte
over the first size bytes of data, starting from crc = 0.  The list
argument stands for data[0 .. size-1]. -/
def dallas_crc8 (data : List Nat) : Nat :=
  data.foldl crc8_byte 0

/-- Embedding of reset_pulse().  The pin manipulations and waits are
timing-only; the single observable input is the value of the PC_IDR port
register sampled during the presence window.  The function returns 1 when
bit 6 (mask 0x40, IO 16) reads high and 0 when a device holds it low. -/
def reset_pulse (pc_idr : Nat) : Nat :=
  if pc_idr &&& 0x40 ≠ 0 then 1 else 0

/-- Line level presented to reset_pulse by the simulated search bus: with
at least one device on the bus the presence pulse drives IO 16 low, with
no devices the pull-up leaves it high (0x40). -/
def busLine (bus : List (List Nat)) : Nat :=
  if bus.isEmpty then 0x40 else 0

/-- Bit i (0-based, bit 0 = first bit searched = LSB of byte 0) of a
device identifier stored as 8 bytes, matching the C access pattern
ROM[n] & k with n = i / 8 and k = 1 << (i % 8). -/
def idBit (d : List Nat) (i : Nat) : Bool :=
  (d.getD (i / 8) 0).testBit (i % 8)

/-- Rounding table dec_temp from the C file: maps the 4 fractional bits
of a raw sample to the single displayed tenths digit. -/
def dec_temp : List Char :=
  ['0', '1', '1', '2', '3', '3', '4', '4', '5', '6', '6', '7', '8', '8', '9', '9']

/-- Result of convert_temperature.  The sensor-absent branch copies the
literal placeholder string into OctetArray; the normal branch is recorded
by its components sign character (temp_string[0]), whole-degree value
(whole_temp) and tenths digit (temp_string[5] = dec_temp[decimal_temp]),
since the 3-character rendering of whole_temp is done by emb_itoa, which
lives outside this file's sources. -/
inductive ConvOut where
  | outStr (s : String)
  | outTemp (sign : Char) (whole : Int) (tenths : Char)
  deriving DecidableEq, Repr

/-- Conversion of the assembled 16-bit raw scratchpad word (uint16_t) to
the int16_t value the Fahrenheit path works with, modelling the C cast
F_temp0 = (int16_t)raw_temp as the usual two's-complement reinterpretation. -/
def toInt16 (raw : Nat) : Int :=
  if raw < 0x8000 then (raw : Int) else (raw : Int) - 0x10000

/-- Embedding of convert_temperature(device_num, degCorF) acting on the
two scratchpad bytes of the selected device slot: msb is
DS18B20_scratch[device_num][1] and lsb is DS18B20_scratch[device_num][0].
Every masking and shifting step follows the C source; uint8_t and masked
int16_t intermediates stay below their C ranges, C integer division
(truncation toward zero) is Int.tdiv, and the C expression F_temp2 & 0xf
on a two's-complement int32 is its value modulo 16. -/
def convert_temperature (msb lsb degCorF : Nat) : ConvOut :=
  if msb ≠ 0x55 then
    if degCorF = 0 then
      -- degrees C path
      let whole_temp : Nat := (((msb <<< 8) ||| lsb) &&& 0x07f0) >>> 4
      let decimal_temp : Nat := lsb &&& 0x0f
      if msb &&& 0x80 = 0x80 then
        let whole_temp := whole_temp ^^^ 0x007f
        let decimal_temp := ((decimal_temp ^^^ 0x0f) + 1) &&& 0x0f
        ConvOut.outTemp '-' (whole_temp : Int) (dec_temp.getD decimal_temp ' ')
      else
        ConvOut.outTemp ' ' (whole_temp : Int) (dec_temp.getD decimal_temp ' ')
    else
      -- degrees F path
      let raw_temp : Nat := (msb <<< 8) ||| lsb
      let F_temp0 : Int := toInt16 raw_temp
      let F_temp1 : Int := (F_temp0 + 880) * 180
      let F_temp2 : Int := Int.tdiv F_temp1 100
      let F_temp2 : Int := F_temp2 - 1072
      let whole_temp : Int := Int.tdiv F_temp2 16
      let decimal_temp : Nat := (Int.emod F_temp2 16).toNat
      if F_temp2 < 0 then
        let whole_temp := whole_temp * (-1)
        let decimal_temp := ((decimal_temp ^^^ 0xf) + 1) &&& 0x0f
        ConvOut.outTemp '-' whole_temp (dec_temp.getD decimal_temp ' ')
      else
        ConvOut.outTemp ' ' whole_temp (dec_temp.getD decimal_temp ' ')
  else
    ConvOut.outStr "------"

/-- State of the inner 64-bit loop of Next: the 9-cell ROM buffer, the
loop variables m (1-based bit counter), n (byte index), k (bit mask), the
discrepancy marker, the devices still participating in this pass, and a
flag recording that the x == 3 break was taken. -/
structure PassState where
  ROM : List Nat
  m : Nat
  n : Nat
  k : Nat
  discrepMarker : Nat
  parts : List (List Nat)
  x3 : Bool
  deriving Repr, DecidableEq

/-- One iteration of the do-while loop inside Next.  The two bus reads at
the current position (bit index m - 1) return the wired-AND of the
participating devices' bit and of its complement; a floating (device-free)
line reads 1.  After the master writes the chosen bit g, devices whose bit
differs drop out for the rest of the pass.  Iterations after the x == 3
break or after n has reached 8 leave the state unchanged, so iterating
this step 64 times runs the loop to completion. -/
def searchStep (lastDiscrep : Nat) (s : PassState) : PassState :=
  if s.x3 ∨ 8 ≤ s.n then s
  else
    let i := s.m - 1
    let r1 : Bool := s.parts.all (fun d => idBit d i)
    let r2 : Bool := s.parts.all (fun d => !idBit d i)
    let x : Nat := (if r1 then 2 else 0) + (if r2 then 1 else 0)
    if x = 3 then { s with x3 := true }
    else
      let g : Bool :=
        if x > 0 then x >>> 1 = 1
        else if s.m < lastDiscrep then (s.ROM.getD s.n 0) &&& s.k > 0
        else s.m = lastDiscrep
      let discrepMarker := if x = 0 ∧ g = false then s.m else s.discrepMarker
      let ROM :=
        if g then s.ROM.set s.n ((s.ROM.getD s.n 0) ||| s.k)
        else s.ROM.set s.n ((s.ROM.getD s.n 0) &&& (0xff ^^^ s.k))
      let parts := s.parts.filter (fun d => idBit d i = g)
      let m := s.m + 1
      let k := (s.k <<< 1) &&& 0xff
      let n := if k = 0 then s.n + 1 else s.n
      let k := if k = 0 then k + 1 else k
      { ROM := ROM, m := m, n := n, k := k, discrepMarker := discrepMarker,
        parts := parts, x3 := s.x3 }

/-- Iterated searchStep (fuel is the number of remaining iterations). -/
def searchRun (lastDiscrep : Nat) (s : PassState) : Nat → PassState
  | 0 => s
  | fuel + 1 => searchRun lastDiscrep (searchStep lastDiscrep s) fuel

/-- The file-scope globals of the Maxim-derived search code that persist
between calls to Next. -/
structure SearchGlobals where
  ROM : List Nat
  lastDiscrep : Nat
  doneFlag : Bool
  deriving Repr, DecidableEq

/-- Zero-initialized globals (C statics): ROM is all zeroes (9 cells, the
last being the out-of-array cell that Next's validation reads),
lastDiscrep = 0, doneFlag = 0. -/
def initGlobals : SearchGlobals :=
  { ROM := [0, 0, 0, 0, 0, 0, 0, 0, 0], lastDiscrep := 0, doneFlag := false }

/-- Initial state of the 64-bit search loop of Next: the ROM buffer as
left by earlier passes, loop counters m = 1, n = 0, k = 1, a cleared
discrepancy marker and the full bus participating. -/
def initPass (bus : List (List Nat)) (g : SearchGlobals) : PassState :=
  { ROM := g.ROM, m := 1, n := 0, k := 1, discrepMarker := 0,
    parts := bus, x3 := false }

/-- Embedding of Next() against the simulated bus.  Returns the C return
value (as a Bool) together with the updated globals.  The initial
reset_pulse sees the simulated line level; the 64-bit loop then runs on
the participating devices (initially the whole bus), and the result is
validated exactly as in the source: m must have reached 65 and the CRC of
the first 8 ROM bytes must equal the buffer's 9th byte. -/
def Next (bus : List (List Nat)) (g : SearchGlobals) : Bool × SearchGlobals :=
  if reset_pulse (busLine bus) ≠ 0 ∨ g.doneFlag then
    (false, { g with lastDiscrep := 0 })
  else
    let s := searchRun g.lastDiscrep (initPass bus g) 64
    let crc := dallas_crc8 (s.ROM.take 8)
    if s.m < 65 ∨ crc ≠ s.ROM.getD 8 0 then
      (false, { g with ROM := s.ROM, lastDiscrep := 0 })
    else
      (true, { ROM := s.ROM, lastDiscrep := s.discrepMarker,
               doneFlag := s.discrepMarker = 0 })

/-- Embedding of First(): reset the search state and call Next. -/
def First (bus : List (List Nat)) (g : SearchGlobals) : Bool × SearchGlobals :=
  Next bus { g with lastDiscrep := 0, doneFlag := false }

/-- The do-while loop of FindDevices.  Each iteration increments numROMs,
copies the first 8 ROM bytes into the found-ROM table (recorded here as
the list of performed writes, each tagged with the numROMs row index used)
and continues while Next() succeeds and numROMs < 5.  numROMs strictly
increases, so the loop body runs at most 6 times and fuel 7 is never
exhausted. -/
def FindLoop (bus : List (List Nat)) (g : SearchGlobals) (numROMs : Int)
    (writes : List (Int × List Nat)) : Nat → SearchGlobals × Int × List (Int × List Nat)
  | 0 => (g, numROMs, writes)
  | fuel + 1 =>
    let numROMs := numROMs + 1
    let writes := writes ++ [(numROMs, g.ROM.take 8)]
    let r := Next bus g
    if r.1 ∧ numROMs < 5 then FindLoop bus r.2 numROMs writes fuel
    else (r.2, numROMs, writes)

/-- Embedding of FindDevices(): numROMs starts at -1 (no devices); if the
initial reset_pulse sees a presence and First() finds a part, the
do-while loop stores the found ROM codes.  The returned write list is the
sequence of FoundROM row assignments performed (the device table). -/
def FindDevices (bus : List (List Nat)) (g : SearchGlobals) :
    SearchGlobals × Int × List (Int × List Nat) :=
  if reset_pulse (busLine bus) = 0 then
    let r := First bus g
    if r.1 then FindLoop bus r.2 (-1) [] 7
    else (r.2, -1, [])
  else (g, -1, [])

/-- The table of identifiers produced by a FindDevices run (the bytes of
each row write, in order). -/
def foundTable (r : SearchGlobals × Int × List (Int × List Nat)) : List (List Nat) :=
  r.2.2.map (fun w => w.2)

/-- Environment seen by get_temperature: idr t is the PC_IDR port value
sampled by the t-th reset_pulse call of the pass, and bit r is the level
returned by the r-th read_bit call.  Writes (transmit_byte, write_bit)
only drive the line and consume no environment input. -/
structure TempEnv where
  idr : Nat → Nat
  bit : Nat → Bool

/-- The j-mask loop of get_temperature that assembles one scratchpad byte:
starting from mask j, each read_bit ORs j into the stored byte or ANDs its
complement out, then doubles j, stopping after the 0x80 mask.  Returns the
new byte and the advanced read counter. -/
def readScratchByte (env : TempEnv) : Nat → Nat → Nat → Nat × Nat
  | 0, rc, old => (old, rc)
  | rounds + 1, rc, old =>
    let j := 1 <<< (8 - (rounds + 1))
    let old := if env.bit rc then old ||| j else old &&& (0xff ^^^ j)
    readScratchByte env rounds (rc + 1) old

/-- One iteration of the device loop of get_temperature for device_num =
d: a reset_pulse whose failure aborts the whole function, then (if d <=
numROMs) match-ROM addressing, a 2-byte scratchpad read, and the ignored
reset_pulse before the convert-temperature command.  State is (reset
counter, read counter, scratch array); the Bool result is false when the
early return was taken. -/
def sampleDevice (env : TempEnv) (numROMs : Int) (d : Nat)
    (st : Nat × Nat × List (List Nat)) : Bool × (Nat × Nat × List (List Nat)) :=
  let (t, rc, scratch) := st
  if reset_pulse (env.idr t) ≠ 0 then (false, (t + 1, rc, scratch))
  else if (d : Int) ≤ numROMs then
    -- transmit_byte(0x55), the 8 ROM bytes, transmit_byte(0xbe): writes only
    let row := scratch.getD d []
    let (b0, rc) := readScratchByte env 8 rc (row.getD 0 0)
    let (b1, rc) := readScratchByte env 8 rc (row.getD 1 0)
    let scratch := scratch.set d [b0, b1]
    -- reset_pulse() before the convert command: its return value is ignored
    -- transmit_byte(0x55), the 8 ROM bytes, transmit_byte(0x44): writes only
    (true, (t + 2, rc, scratch))
  else (true, (t + 1, rc, scratch))

/-- The device loop of get_temperature over the remaining device numbers;
a false result from sampleDevice is the C return statement and stops the
whole loop. -/
def sampleLoop (env : TempEnv) (numROMs : Int) :
    List Nat → Nat × Nat × List (List Nat) → Nat × Nat × List (List Nat)
  | [], st => st
  | d :: rest, st =>
    let r := sampleDevice env numROMs d st
    if r.1 then sampleLoop env numROMs rest r.2 else r.2

/-- Embedding of get_temperature(): runs the device loop for device_num =
0..4 over the prior scratch array and returns the updated scratch array. -/
def get_temperature (env : TempEnv) (numROMs : Int)
    (scratch : List (List Nat)) : List (List Nat) :=
  (sampleLoop env numROMs [0, 1, 2, 3, 4] (0, 0, scratch)).2.2

/-- Celsius decoding as the specification words it, for comparison with
the code: take the combined 11-bit whole+fraction field, and if the
sample is negative two's-complement the combined value (invert bits, add
1) before splitting it into whole degrees and fractional nibble.  Returns
(sign, whole, fractional nibble). -/
def celsiusCombinedSpec (msb lsb : Nat) : Char × Nat × Nat :=
  let v := ((msb <<< 8) ||| lsb) &&& 0x07ff
  if msb &&& 0x80 = 0x80 then
    let w := ((v ^^^ 0x07ff) + 1) &&& 0x07ff
    ('-', w >>> 4, w &&& 0x0f)
  else
    (' ', v >>> 4, v &&& 0x0f)

/-- Two-device bus used to refute the discovery claim for identifiers
differing only in their final (64th) bit: the all-zero identifier has a
valid Dallas CRC (crc of eight zero bytes is zero), and flipping the top
bit of the final byte yields the companion identifier. -/
def cexPairBus : List (List Nat) :=
  [[0, 0, 0, 0, 0, 0, 0, 0], [0, 0, 0, 0, 0, 0, 0, 0x80]]

/-- Search-loop state at the first bit of a first pass (lastDiscrep = 0)
on a bus of two devices that disagree in bit 0: both bus reads return 0
there, a discrepancy at a position not earlier than lastDiscrep. -/
def cexDiscrepState : PassState :=
  { ROM := [0, 0, 0, 0, 0, 0, 0, 0, 0], m := 1, n := 0, k := 1,
    discrepMarker := 0,
    parts := [[0, 0, 0, 0, 0, 0, 0, 0], [1, 0, 0, 0, 0, 0, 0, 0]],
    x3 := false }

/-- Six-device bus (all identifiers carry their valid Dallas CRC byte)
used to drive FindDevices past the declared 5-row capacity of FoundROM. -/
def sixDeviceBus : List (List Nat) :=
  [[0, 0, 0, 0, 0, 0, 0, 0],
   [1, 0, 0, 0, 0, 0, 0, 61],
   [2, 0, 0, 0, 0, 0, 0, 122],
   [3, 0, 0, 0, 0, 0, 0, 71],
   [4, 0, 0, 0, 0, 0, 0, 244],
   [5, 0, 0, 0, 0, 0, 0, 201]]

/-- Sampling environment used to refute the wholesale-abort claim: every
reset_pulse sees a presence (PC_IDR bit 6 low) except the third reset of
the pass (index 2), which is the leading reset of the device 1 iteration;
every read_bit returns 1. -/
def cexTempEnv : TempEnv :=
  { idr := fun t => if t = 2 then 0x40 else 0, bit := fun _ => true }

/-- All-zero prior scratch array (5 devices, 2 bytes each). -/
def scratchZero : List (List Nat) := [[0, 0], [0, 0], [0, 0], [0, 0], [0, 0]]

def sampleCost (numROMs : Int) (i : Nat) : Nat :=
  if (i : Int) ≤ numROMs then 2 else 1

def resetIdx (numROMs : Int) (j : Nat) : Nat :=
  ((List.range j).map (sampleCost numROMs)).sum

def allPresenceEnv : TempEnv :=
  { idr := fun _ => 0, bit := fun _ => true }

/-! Verification-side definitions used to state and prove properties of
the search algorithm.  They are not part of the embedded program. -/

/-- agreesBelow e d i: the identifiers e and d carry the same bits at
every search position strictly before i. -/
def agreesBelow (e d : List Nat) (i : Nat) : Bool :=
  (List.range i).all (fun j => idBit e j == idBit d j)

/-- branchAt ids d i: position i is a deferred-0 branch point of d within
the device set ids — d carries bit 0 there while some device agreeing
with d on all earlier bits carries bit 1. -/
def branchAt (ids : List (List Nat)) (d : List Nat) (i : Nat) : Bool :=
  !idBit d i && ids.any (fun e => agreesBelow e d i && idBit e i)

/-- Last i < n with p i, recorded as i + 1 (0 when none): the overwrite
pattern the search loop uses for its discrepancy marker. -/
def foldGreatest (p : Nat → Bool) (n : Nat) : Nat :=
  (List.range n).foldl (fun a i => if p i then i + 1 else a) 0

/-- The discrepancy marker value a full search pass settling on d leaves
behind: the last branch point of d, as a 1-based bit position. -/
def dmark (ids : List (List Nat)) (d : List Nat) : Nat :=
  foldGreatest (branchAt ids d) 64

/-- Numeric value of a bit list read most-significant-first. -/
def binVal : List Bool → Nat
  | [] => 0
  | b :: bs => (if b then 2 ^ bs.length else 0) + binVal bs

/-- The first n search bits of an identifier. -/
def bitsOf (d : List Nat) (n : Nat) : List Bool :=
  (List.range n).map (fun i => idBit d i)

/-- Search order key of an identifier: its 64 bits in search order, the
bit searched first being most significant.  A pass of the algorithm finds
the participating identifier with the least key not yet found. -/
def key (d : List Nat) : Nat :=
  binVal (bitsOf d 64)

/-- The element of a nonempty list with the least key (head-biased). -/
def argminKey : List (List Nat) → List Nat
  | [] => []
  | [d] => d
  | d :: e :: rest =>
    let m := argminKey (e :: rest)
    if key d ≤ key m then d else m

/-- Devices of the bus whose key is strictly greater than that of d: the
devices still to be found once the enumeration has reached d. -/
def succAfter (ids : List (List Nat)) (d : List Nat) : List (List Nat) :=
  ids.filter (fun e => decide (key d < key e))

/-- Well-formed identifier: 8 bytes, each below 256. -/
def wfId (d : List Nat) : Prop :=
  d.length = 8 ∧ ∀ b ∈ d, b < 256

/-- Search-state well-formedness maintained across passes: a 9-cell ROM
buffer of bytes whose out-of-array 9th cell holds 0 (its
zero-initialized value, never written by the search loop). -/
def okGlobals (g : SearchGlobals) : Prop :=
  g.ROM.length = 9 ∧ (∀ b ∈ g.ROM, b < 256) ∧ g.ROM.getD 8 0 = 0

/-- Loop invariant of one pass of the 64-bit search loop, relating the
state after c iterations to the device t the pass is heading for: the
counters are in lock-step, the bits already resolved match t, the bits
not yet written still match the initial buffer r, the 9th cell is
untouched, the participants are exactly the devices agreeing with t so
far, and the marker records the last branch point of t seen so far. -/
structure PassInv (ids : List (List Nat)) (ℓ : Nat) (r t : List Nat)
    (c : Nat) (s : PassState) : Prop where
  hx : s.x3 = false
  hm : s.m = c + 1
  hn : s.n = c / 8
  hk : s.k = 2 ^ (c % 8)
  hlen : s.ROM.length = 9
  hbytes : ∀ b ∈ s.ROM, b < 256
  hbits_lo : ∀ j, j < c → idBit s.ROM j = idBit t j
  hbits_hi : ∀ j, c ≤ j → j < 64 → idBit s.ROM j = idBit r j
  hcell8 : s.ROM.getD 8 0 = r.getD 8 0
  hparts : s.parts = ids.filter (fun e => agreesBelow e t c)
  hmark : s.discrepMarker = foldGreatest (branchAt ids t) c

/-- What makes t the device a pass with lastDiscrep = ℓ and initial
buffer r will find: t is on the bus; no device agreeing with t below a
position later than ℓ goes the 0 way where t goes the 1 way (t is
minimal there); the buffer replays t's bits below ℓ - 1; t takes the 1
branch at position ℓ - 1. -/
structure TargetSpec (ids : List (List Nat)) (ℓ : Nat) (r t : List Nat) : Prop where
  tmem : t ∈ ids
  tmin : ∀ i, i < 64 → ℓ < i + 1 → ∀ e ∈ ids, agreesBelow e t i = true →
    idBit e i = false → idBit t i = true → False
  trep : ∀ i, i + 1 < ℓ → idBit r i = idBit t i
  tone : 1 ≤ ℓ → idBit t (ℓ - 1) = true
  tle : ℓ ≤ 64

/-- Fuel-indexed canonical enumeration chain: from a just-found device d,
the devices a FindDevices run goes on to store, in order (each step moves
to the least-key device strictly greater than the current one). -/
def enumChain (ids : List (List Nat)) : Nat → List Nat → List (List Nat)
  | 0, _ => []
  | fuel + 1, d =>
    if succAfter ids d = [] then []
    else argminKey (succAfter ids d) :: enumChain ids fuel (argminKey (succAfter ids d))

def chainFrom (ids : List (List Nat)) (d : List Nat) : List (List Nat) :=
  enumChain ids (succAfter ids d).length d

def idxWrites (j : Int) : List (List Nat) → List (Int × List Nat)
  | [] => []
  | d :: rest => (j, d) :: idxWrites (j + 1) rest

def enumList (ids : List (List Nat)) : List (List Nat) :=
  if ids = [] then [] else argminKey ids :: chainFrom ids (argminKey ids)

/-- A bus of two CRC-valid devices used to instantiate the FindDevices
enumeration theorem on concrete data. -/
def pairValidBus : List (List Nat) :=
  [[0, 0, 0, 0, 0, 0, 0, 0], [1, 0, 0, 0, 0, 0, 0, 61]]

/-- All-zero identifier (a CRC-valid id: the Dallas CRC of eight zero
bytes is zero), used to instantiate the final-bit pair theorem. -/
def zerosId : List Nat := [0, 0, 0, 0, 0, 0, 0, 0]

/-! Helper lemmas about bytes, bits and list cells. -/

theorem getD_set_self (l : List Nat) (n v : Nat) (h : n < l.length) :
    (l.set n v).getD n 0 = v := by
  simp [List.getD, List.getElem?_set, h]

theorem getD_set_ne (l : List Nat) (n j v : Nat) (h : j ≠ n) :
    (l.set n v).getD j 0 = l.getD j 0 := by
  simp [List.getD, List.getElem?_set, Ne.symm h]

theorem testBit_or_pow (b t : Nat) : (b ||| 2 ^ t).testBit t = true := by
  simp [Nat.testBit_or]

theorem testBit_or_pow_ne (b t s : Nat) (h : s ≠ t) :
    (b ||| 2 ^ t).testBit s = b.testBit s := by
  simp only [Nat.testBit_or, Nat.testBit_two_pow]
  cases hb : b.testBit s <;> simp [hb, Ne.symm h]

theorem testBit_255 (s : Nat) : (255 : Nat).testBit s = decide (s < 8) := by
  have h : (255 : Nat) = 2 ^ 8 - 1 := by norm_num
  rw [h, Nat.testBit_two_pow_sub_one]

theorem testBit_and_clear (b t : Nat) (ht : t < 8) :
    (b &&& (255 ^^^ 2 ^ t)).testBit t = false := by
  simp [Nat.testBit_and, Nat.testBit_xor, Nat.testBit_two_pow, testBit_255, ht]

theorem testBit_and_clear_ne (b t s : Nat) (h : s ≠ t) (hs : s < 8) :
    (b &&& (255 ^^^ 2 ^ t)).testBit s = b.testBit s := by
  simp only [Nat.testBit_and, Nat.testBit_xor, Nat.testBit_two_pow, testBit_255]
  cases hb : b.testBit s <;> simp [hb, hs, Ne.symm h]

theorem and_pow_pos (b t : Nat) : (b &&& 2 ^ t > 0) ↔ b.testBit t = true := by
  rw [Nat.and_two_pow]
  cases h : b.testBit t <;> simp

theorem testBit_high_byte (b s : Nat) (h : b < 256) (hs : 8 ≤ s) :
    b.testBit s = false := by
  refine Nat.testBit_eq_false_of_lt (lt_of_lt_of_le h ?_)
  calc (256 : Nat) = 2 ^ 8 := by norm_num
  _ ≤ 2 ^ s := Nat.pow_le_pow_right (by norm_num) hs

/-! Claim C2: behaviour of the inner search loop at a discrepancy. -/

set_option maxRecDepth 10000

/-- Claim C2 as stated is false on the code: at the very first bit of a
first pass (m = 1, lastDiscrep = 0, a position not earlier than the last
discrepancy) with both bus reads 0, the inner loop does not choose bit
value 1 — it stores bit 0 at that position (while recording the position
as the marker). -/
theorem searchStep_discrepancy_cex :
    cexDiscrepState.parts.all (fun d => idBit d 0) = false ∧
    cexDiscrepState.parts.all (fun d => !idBit d 0) = false ∧
    0 ≤ cexDiscrepState.m ∧
    ¬ (idBit (searchStep 0 cexDiscrepState).ROM 0 = true ∧
       (searchStep 0 cexDiscrepState).discrepMarker = cexDiscrepState.m) := by
  decide

/-- Amended claim C2: at a discrepancy (both reads 0) at bit position m,
the loop replays the stored identifier-buffer bit when m is strictly
earlier than lastDiscrep, chooses 1 exactly when m equals lastDiscrep,
and chooses 0 when m is strictly later; the position is recorded as the
new discrepancy marker exactly when the chosen bit is 0. -/
theorem searchStep_discrepancy (ℓ i : Nat) (s : PassState)
    (hx3 : s.x3 = false) (hm : s.m = i + 1) (hn : s.n = i / 8)
    (hk : s.k = 2 ^ (i % 8)) (hlen : s.ROM.length = 9) (hi : i < 64)
    (hr1 : s.parts.all (fun d => idBit d i) = false)
    (hr2 : s.parts.all (fun d => !idBit d i) = false) :
    idBit (searchStep ℓ s).ROM i =
      (if s.m < ℓ then idBit s.ROM i else decide (s.m = ℓ)) ∧
    (searchStep ℓ s).discrepMarker =
      (if (if s.m < ℓ then idBit s.ROM i else decide (s.m = ℓ)) = true
       then s.discrepMarker else s.m) := by
  have hn8 : s.n < 8 := by
    rw [hn]; exact Nat.div_lt_of_lt_mul (by omega)
  have hmi : s.m - 1 = i := by omega
  have hi8 : i % 8 < 8 := Nat.mod_lt _ (by norm_num)
  have hrom : idBit s.ROM i = ((s.ROM.getD s.n 0) &&& s.k > 0 : Bool) := by
    rw [hk, hn]
    unfold idBit
    cases h : (s.ROM.getD (i / 8) 0).testBit (i % 8)
    · simp only [h, Nat.and_two_pow, Bool.toNat_false, Nat.zero_mul]
      simp
    · simp only [h, Nat.and_two_pow, Bool.toNat_true, Nat.one_mul]
      simp [Nat.two_pow_pos]
  simp only [searchStep, hx3, Bool.false_eq_true, false_or,
    if_neg (show ¬ 8 ≤ s.n by omega), hmi, hr1, hr2, hrom]
  norm_num
  have hA1 : idBit (s.ROM.set s.n (s.ROM[s.n]?.getD 0 ||| s.k)) i = true := by
    unfold idBit
    rw [show ((s.ROM.set s.n (s.ROM[s.n]?.getD 0 ||| s.k))).getD (i / 8) 0
        = s.ROM[s.n]?.getD 0 ||| s.k from by
      rw [← hn]; exact getD_set_self _ _ _ (by omega)]
    rw [hk]; exact testBit_or_pow _ _
  have hA0 : idBit (s.ROM.set s.n (s.ROM[s.n]?.getD 0 &&& (255 ^^^ s.k))) i = false := by
    unfold idBit
    rw [show ((s.ROM.set s.n (s.ROM[s.n]?.getD 0 &&& (255 ^^^ s.k)))).getD (i / 8) 0
        = s.ROM[s.n]?.getD 0 &&& (255 ^^^ s.k) from by
      rw [← hn]; exact getD_set_self _ _ _ (by omega)]
    rw [hk]; exact testBit_and_clear _ _ hi8
  by_cases hml : s.m < ℓ
  · simp only [if_pos hml]
    by_cases hb : 0 < s.ROM[s.n]?.getD 0 &&& s.k
    · have hb0 : ¬ (s.ROM[s.n]?.getD 0 &&& s.k = 0) := by omega
      simp [hb, hb0, hA1]
    · have hb0 : s.ROM[s.n]?.getD 0 &&& s.k = 0 := by omega
      simp [hb, hb0, hA0]
  · simp only [if_neg hml]
    by_cases hme : s.m = ℓ
    · simp [hme, hA1]
    · simp [hme, hA0]
/-! Claim C6: return value of reset_pulse versus presence. -/

/-- Claim C6 as stated is false on the code: when a device asserts
presence by holding the line low (PC_IDR reads 0, so bit 6 is 0),
reset_pulse returns 0, not a true (non-zero) value. -/
theorem reset_pulse_cex :
    ¬ ((reset_pulse 0 ≠ 0) ↔ (0 &&& 0x40 = 0)) := by decide

/-- Amended claim C6: reset_pulse returns 0 — the value its callers treat
as devices present — exactly when the line was sampled low (bit 6 of
PC_IDR clear) during the presence window, and returns 1 otherwise. -/
theorem reset_pulse_presence (pc_idr : Nat) :
    reset_pulse pc_idr = 0 ↔ pc_idr &&& 0x40 = 0 := by
  unfold reset_pulse
  by_cases h : pc_idr &&& 0x40 = 0 <;> simp [h]

/-! Claim C7: Celsius decoding of negative raw samples. -/

/-- Claim C7's general rule (two's complement of the combined
whole+fraction value) matches the code on the -0.5 °C example bytes
(0xff, 0xf8), but the code contradicts it — and its own test table entry
"0xff 0xf0 = -1.0000C" — on the bytes 0xff, 0xf0: the carry of the
two's-complement +1 never propagates from the fraction nibble into the
whole part, so the code renders whole degree 0 where -1.0 is required. -/
theorem convert_neg_carry_bug :
    convert_temperature 0xff 0xf0 0 = ConvOut.outTemp '-' 0 '0' ∧
    celsiusCombinedSpec 0xff 0xf0 = ('-', 1, 0) ∧
    convert_temperature 0xff 0xf8 0 = ConvOut.outTemp '-' 0 '5' ∧
    celsiusCombinedSpec 0xff 0xf8 = ('-', 0, 8) ∧
    dec_temp.getD 8 ' ' = '5' := by
  decide

theorem assemble_bytes (msb lsb : Nat) (h : lsb < 256) :
    (msb <<< 8) ||| lsb = msb * 256 + lsb := by
  have h2 : msb <<< 8 = msb * 256 := by rw [Nat.shiftLeft_eq]
  have h3 : lsb < 2 ^ 8 := by simpa using h
  rw [h2, Nat.mul_comm msb 256, show (256 : Nat) = 2 ^ 8 from by norm_num]
  exact (Nat.mul_add_lt_is_or h3 msb).symm

theorem sentinel_dashes :
    (∀ lsb degCorF, convert_temperature 0x55 lsb degCorF = ConvOut.outStr "------") ∧
    (∀ v degCorF, v < 65536 → (v >>> 11 = 0 ∨ v >>> 11 = 0x1f) →
      convert_temperature (v >>> 8) (v &&& 0xff) degCorF ≠ ConvOut.outStr "------") := by
  constructor
  · intro lsb degCorF
    unfold convert_temperature
    simp
  · intro v degCorF hv hse
    have hmsb : v >>> 8 ≠ 0x55 := by
      intro h
      have h11 : v >>> 11 = (v >>> 8) >>> 3 := by
        rw [← Nat.shiftRight_add]
      rw [h11, h] at hse
      revert hse
      decide
    unfold convert_temperature
    rw [if_pos hmsb]
    dsimp only
    split
    · split <;> simp
    · split <;> simp

theorem fahrenheit_integer_formula :
    (∀ msb lsb : Nat, msb < 256 → lsb < 256 → msb ≠ 0x55 →
      convert_temperature msb lsb 1 =
        (let rawv : Int :=
           (msb * 256 + lsb : Nat) - (if (msb * 256 + lsb : Nat) < 32768 then 0 else 65536)
         let t : Int := Int.tdiv ((rawv + 880) * 180) 100 - 1072
         ConvOut.outTemp (if t < 0 then '-' else ' ')
           (if t < 0 then - Int.tdiv t 16 else Int.tdiv t 16)
           (dec_temp.getD (if t < 0 then (((Int.emod t 16).toNat ^^^ 0xf) + 1) &&& 0xf
                           else (Int.emod t 16).toNat) ' '))) ∧
    convert_temperature 0x07 0xd0 0 = ConvOut.outTemp ' ' 125 '0' ∧
    convert_temperature 0x07 0xd0 1 = ConvOut.outTemp ' ' 257 '0' := by
  refine ⟨?_, by decide, by decide⟩
  intro msb lsb hm hl hs
  have hraw : toInt16 (msb * 256 + lsb) =
      ((msb * 256 + lsb : Nat) : Int) -
        (if (msb * 256 + lsb : Nat) < 32768 then 0 else 65536) := by
    unfold toInt16
    by_cases h : (msb * 256 + lsb : Nat) < 32768
    · rw [if_pos (show msb * 256 + lsb < 0x8000 from h), if_pos h, sub_zero]
    · rw [if_neg (show ¬ msb * 256 + lsb < 0x8000 from h), if_neg h]
  unfold convert_temperature
  rw [if_pos hs, if_neg (by norm_num : ¬ (1 : Nat) = 0)]
  dsimp only
  rw [assemble_bytes msb lsb hl, hraw]
  split <;> (split <;> simp [mul_neg_one])
/-- Witness for searchStep_discrepancy: a replay case, lastDiscrep = 5
and the discrepancy at bit position m = 1 < 5, on the concrete two-device
discrepancy state; the stored buffer bit 0 is replayed and, being 0, the
position is recorded as the marker. -/
theorem searchStep_discrepancy_witness :
    (cexDiscrepState.x3 = false ∧ cexDiscrepState.m = 0 + 1 ∧
     cexDiscrepState.n = 0 / 8 ∧ cexDiscrepState.k = 2 ^ (0 % 8) ∧
     cexDiscrepState.ROM.length = 9 ∧ (0 : Nat) < 64 ∧
     cexDiscrepState.parts.all (fun d => idBit d 0) = false ∧
     cexDiscrepState.parts.all (fun d => !idBit d 0) = false) ∧
    (idBit (searchStep 5 cexDiscrepState).ROM 0 =
       (if cexDiscrepState.m < 5 then idBit cexDiscrepState.ROM 0
        else decide (cexDiscrepState.m = 5)) ∧
     (searchStep 5 cexDiscrepState).discrepMarker =
       (if (if cexDiscrepState.m < 5 then idBit cexDiscrepState.ROM 0
            else decide (cexDiscrepState.m = 5)) = true
        then cexDiscrepState.discrepMarker else cexDiscrepState.m)) :=
  ⟨⟨by decide, by decide, by decide, by decide, by decide, by decide,
    by decide, by decide⟩,
   searchStep_discrepancy 5 0 cexDiscrepState (by decide) (by decide)
     (by decide) (by decide) (by decide) (by decide) (by decide) (by decide)⟩

/-- Witness for sentinel_dashes: the +125 °C raw sample 0x07d0 is a
sign-extended 12-bit reading (upper five bits all 0) and does not format
as the sentinel placeholder. -/
theorem sentinel_dashes_witness :
    ((0x07d0 : Nat) < 65536 ∧
     ((0x07d0 : Nat) >>> 11 = 0 ∨ (0x07d0 : Nat) >>> 11 = 0x1f)) ∧
    convert_temperature (0x07d0 >>> 8) (0x07d0 &&& 0xff) 0 ≠ ConvOut.outStr "------" :=
  ⟨⟨by decide, Or.inl (by decide)⟩,
   sentinel_dashes.2 0x07d0 0 (by decide) (Or.inl (by decide))⟩

/-- Witness for fahrenheit_integer_formula: the formula applied to the
raw bytes msb = 0x07, lsb = 0xd0 (+125 °C, +257 °F). -/
theorem fahrenheit_integer_formula_witness :
    ((0x07 : Nat) < 256 ∧ (0xd0 : Nat) < 256 ∧ (0x07 : Nat) ≠ 0x55) ∧
    convert_temperature 0x07 0xd0 1 =
      (let rawv : Int :=
         (0x07 * 256 + 0xd0 : Nat) -
           (if (0x07 * 256 + 0xd0 : Nat) < 32768 then 0 else 65536)
       let t : Int := Int.tdiv ((rawv + 880) * 180) 100 - 1072
       ConvOut.outTemp (if t < 0 then '-' else ' ')
         (if t < 0 then - Int.tdiv t 16 else Int.tdiv t 16)
         (dec_temp.getD (if t < 0 then (((Int.emod t 16).toNat ^^^ 0xf) + 1) &&& 0xf
                         else (Int.emod t 16).toNat) ' ')) :=
  ⟨⟨by decide, by decide, by decide⟩,
   fahrenheit_integer_formula.1 0x07 0xd0 (by decide) (by decide) (by decide)⟩

/-! Claim C4: capacity of the FoundROM table. -/

/-- With six responding devices (all CRC-valid), FindDevices does not
stop at the declared 5-row capacity of FoundROM: the loop performs six
row writes, the last one at row index 5 (one past the last valid index 4
of the uint8_t FoundROM[5][8] table), and leaves numROMs = 5. -/
theorem findDevices_sixth_write :
    (FindDevices sixDeviceBus initGlobals).2.1 = 5 ∧
    (FindDevices sixDeviceBus initGlobals).2.2.map (fun w => w.1) =
      [0, 1, 2, 3, 4, 5] ∧
    (FindDevices sixDeviceBus initGlobals).2.2.length = 6 := by
  decide

/-! Claim C10: two identifiers differing only in the final bit. -/

/-- Claim C10 as stated is false on the code: on the concrete bus of two
identifiers differing only in bit 64 (the all-zero identifier, whose CRC
is valid, and its final-bit companion), First succeeds but the very next
call of Next returns false — the second identifier fails the CRC
validation — so the two passes leave only one identifier in the table
instead of discovering both. -/
theorem pair_final_bit_cex :
    (First cexPairBus initGlobals).1 = true ∧
    (Next cexPairBus (First cexPairBus initGlobals).2).1 = false ∧
    foundTable (FindDevices cexPairBus initGlobals) = [[0, 0, 0, 0, 0, 0, 0, 0]] := by
  decide

theorem getD_set_self_poly {α : Type} (l : List α) (n : Nat) (v dflt : α)
    (h : n < l.length) : (l.set n v).getD n dflt = v := by
  simp [List.getD, List.getElem?_set, h]

theorem getD_set_ne_poly {α : Type} (l : List α) (n j : Nat) (v dflt : α)
    (h : j ≠ n) : (l.set n v).getD j dflt = l.getD j dflt := by
  simp [List.getD, List.getElem?_set, Ne.symm h]

theorem sampleDevice_abort (env : TempEnv) (numROMs : Int) (e t rc : Nat)
    (scr : List (List Nat)) (h : reset_pulse (env.idr t) ≠ 0) :
    sampleDevice env numROMs e (t, rc, scr) = (false, (t + 1, rc, scr)) := by
  rw [sampleDevice]
  simp [h]

theorem sampleDevice_skip (env : TempEnv) (numROMs : Int) (e t rc : Nat)
    (scr : List (List Nat)) (h1 : reset_pulse (env.idr t) = 0)
    (h2 : ¬ (e : Int) ≤ numROMs) :
    sampleDevice env numROMs e (t, rc, scr) = (true, (t + 1, rc, scr)) := by
  rw [sampleDevice]
  simp [h1, h2]

theorem sampleDevice_read (env : TempEnv) (numROMs : Int) (e t rc : Nat)
    (scr : List (List Nat)) (h1 : reset_pulse (env.idr t) = 0)
    (h2 : (e : Int) ≤ numROMs) :
    ∃ rcN b0 b1, sampleDevice env numROMs e (t, rc, scr) =
      (true, (t + 2, rcN, scr.set e [b0, b1])) := by
  rw [sampleDevice]
  simp only [h1, ne_eq, not_true_eq_false, if_false, if_pos h2]
  exact ⟨_, _, _, rfl⟩

theorem sampleLoop_modified (env : TempEnv) (numROMs : Int) :
    ∀ (ds : List Nat) (t rc : Nat) (scr : List (List Nat)) (d : Nat),
      ds.Nodup →
      (sampleLoop env numROMs ds (t, rc, scr)).2.2.getD d [] ≠ scr.getD d [] →
      d ∈ ds ∧ (d : Int) ≤ numROMs ∧
      ∀ p, d ∈ ds.drop p →
        reset_pulse (env.idr (t + ((ds.take p).map (sampleCost numROMs)).sum)) = 0 := by
  intro ds
  induction ds with
  | nil =>
    intro t rc scr d _ h
    exact absurd rfl h
  | cons e rest ih =>
    intro t rc scr d hnd h
    by_cases habort : reset_pulse (env.idr t) ≠ 0
    · rw [sampleLoop, sampleDevice_abort env numROMs e t rc scr habort] at h
      simp at h
    · push_neg at habort
      by_cases he : (e : Int) ≤ numROMs
      · obtain ⟨rcN, b0, b1, hdev⟩ := sampleDevice_read env numROMs e t rc scr habort he
        rw [sampleLoop, hdev] at h
        dsimp only at h
        rw [if_pos rfl] at h
        by_cases hd : (sampleLoop env numROMs rest (t + 2, rcN, scr.set e [b0, b1])).2.2.getD d []
            = (scr.set e [b0, b1]).getD d []
        · rw [hd] at h
          have hde : d = e := by
            by_contra hne
            exact h (getD_set_ne_poly scr e d [b0, b1] [] hne)
          subst hde
          refine ⟨List.mem_cons_self _ _, he, ?_⟩
          intro p hp
          cases p with
          | zero => simpa using habort
          | succ pN =>
            exfalso
            rw [List.drop_succ_cons] at hp
            exact (List.nodup_cons.mp hnd).1 (List.mem_of_mem_drop hp)
        · obtain ⟨hdin, hdle, hres⟩ :=
            ih (t + 2) rcN (scr.set e [b0, b1]) d (List.nodup_cons.mp hnd).2 hd
          refine ⟨List.mem_cons_of_mem _ hdin, hdle, ?_⟩
          intro p hp
          cases p with
          | zero => simpa using habort
          | succ pN =>
            rw [List.drop_succ_cons] at hp
            have hr := hres pN hp
            rw [List.take_succ_cons, List.map_cons, List.sum_cons]
            rw [show sampleCost numROMs e = 2 from by simp [sampleCost, he]]
            rw [show t + (2 + ((rest.take pN).map (sampleCost numROMs)).sum)
                = t + 2 + ((rest.take pN).map (sampleCost numROMs)).sum from by omega]
            exact hr
      · rw [sampleLoop, sampleDevice_skip env numROMs e t rc scr habort he] at h
        dsimp only at h
        rw [if_pos rfl] at h
        obtain ⟨hdin, hdle, hres⟩ :=
          ih (t + 1) rc scr d (List.nodup_cons.mp hnd).2 h
        refine ⟨List.mem_cons_of_mem _ hdin, hdle, ?_⟩
        intro p hp
        cases p with
        | zero => simpa using habort
        | succ pN =>
          rw [List.drop_succ_cons] at hp
          have hr := hres pN hp
          rw [List.take_succ_cons, List.map_cons, List.sum_cons]
          rw [show sampleCost numROMs e = 1 from by simp [sampleCost, he]]
          rw [show t + (1 + ((rest.take pN).map (sampleCost numROMs)).sum)
              = t + 1 + ((rest.take pN).map (sampleCost numROMs)).sum from by omega]
          exact hr

/-! Claim C5: behaviour of get_temperature on a failed reset. -/

theorem get_temperature_abort_cex :
    reset_pulse (cexTempEnv.idr 2) = 1 ∧
    (get_temperature cexTempEnv 1 scratchZero).getD 1 [] = scratchZero.getD 1 [] ∧
    (get_temperature cexTempEnv 1 scratchZero).getD 0 [] ≠ scratchZero.getD 0 [] := by
  decide

theorem get_temperature_modified_requires_presence (env : TempEnv) (numROMs : Int)
    (scratch : List (List Nat)) (d : Nat)
    (h : (get_temperature env numROMs scratch).getD d [] ≠ scratch.getD d []) :
    (d : Int) ≤ numROMs ∧
    ∀ j, j ≤ d → reset_pulse (env.idr (resetIdx numROMs j)) = 0 := by
  obtain ⟨hdin, hdle, hres⟩ :=
    sampleLoop_modified env numROMs [0, 1, 2, 3, 4] 0 0 scratch d (by decide) h
  refine ⟨hdle, ?_⟩
  have hd4 : d ≤ 4 := by simp at hdin; omega
  intro j hj
  have hj4 : j ≤ 4 := le_trans hj hd4
  interval_cases j
  · have hr := hres 0 (by simpa using hdin)
    simpa [resetIdx] using hr
  · have hr := hres 1 (by simp; omega)
    simpa [resetIdx, sampleCost, List.range_succ] using hr
  · have hr := hres 2 (by simp; omega)
    simpa [resetIdx, sampleCost, List.range_succ] using hr
  · have hr := hres 3 (by simp; omega)
    simpa [resetIdx, sampleCost, List.range_succ] using hr
  · have hr := hres 4 (by simp; omega)
    simpa [resetIdx, sampleCost, List.range_succ] using hr

theorem get_temperature_modified_witness :
    ((get_temperature allPresenceEnv 0 scratchZero).getD 0 [] ≠ scratchZero.getD 0 []) ∧
    ((0 : Nat) : Int) ≤ 0 ∧
    (∀ j, j ≤ 0 → reset_pulse (allPresenceEnv.idr (resetIdx 0 j)) = 0) :=
  ⟨by decide,
   (get_temperature_modified_requires_presence allPresenceEnv 0 scratchZero 0 (by decide)).1,
   (get_temperature_modified_requires_presence allPresenceEnv 0 scratchZero 0 (by decide)).2⟩

/-! Claim C3: validation at the end of a Next search pass. -/

theorem searchRun_stall (ℓ : Nat) :
    ∀ (fuel : Nat) (s : PassState), s.x3 = true → searchRun ℓ s fuel = s := by
  intro fuel
  induction fuel with
  | zero => intro s _; rfl
  | succ f ih =>
    intro s hs
    rw [searchRun, searchStep, if_pos (Or.inl hs)]
    exact ih s hs

theorem searchStep_break (ℓ : Nat) (s : PassState) (hx : s.x3 = false) (hn8 : s.n < 8)
    (h1 : (s.parts.all (fun d => idBit d (s.m - 1))) = true)
    (h2 : (s.parts.all (fun d => !idBit d (s.m - 1))) = true) :
    searchStep ℓ s = { s with x3 := true } := by
  rw [searchStep, if_neg (by simp [hx]; omega)]
  dsimp only
  rw [h1, h2]
  rfl

theorem searchStep_advance_shape (ℓ : Nat) (s : PassState) (hx : s.x3 = false)
    (hn8 : s.n < 8)
    (h3 : ¬ ((s.parts.all (fun d => idBit d (s.m - 1))) = true ∧
             (s.parts.all (fun d => !idBit d (s.m - 1))) = true)) :
    (searchStep ℓ s).m = s.m + 1 ∧ (searchStep ℓ s).x3 = false ∧
    (searchStep ℓ s).n = (if (s.k <<< 1) &&& 255 = 0 then s.n + 1 else s.n) ∧
    (searchStep ℓ s).k = (if (s.k <<< 1) &&& 255 = 0 then 1 else (s.k <<< 1) &&& 255) := by
  rw [searchStep, if_neg (by simp [hx]; omega)]
  dsimp only
  cases hr1 : s.parts.all (fun d => idBit d (s.m - 1)) with
  | true =>
    cases hr2 : s.parts.all (fun d => !idBit d (s.m - 1)) with
    | true => exact absurd ⟨hr1, hr2⟩ h3
    | false =>
      rw [if_neg (by norm_num)]
      refine ⟨rfl, hx, ?_, ?_⟩ <;> (by_cases hk0 : (s.k <<< 1) &&& 255 = 0 <;> simp [hk0])
  | false =>
    cases hr2 : s.parts.all (fun d => !idBit d (s.m - 1)) with
    | true =>
      rw [if_neg (by norm_num)]
      refine ⟨rfl, hx, ?_, ?_⟩ <;> (by_cases hk0 : (s.k <<< 1) &&& 255 = 0 <;> simp [hk0])
    | false =>
      rw [if_neg (by norm_num)]
      refine ⟨rfl, hx, ?_, ?_⟩ <;> (by_cases hk0 : (s.k <<< 1) &&& 255 = 0 <;> simp [hk0])

theorem pow_mod8_and_255 (t : Nat) (h : t < 8) : 2 ^ t &&& 255 = 2 ^ t := by
  rw [Nat.and_comm, Nat.and_two_pow, testBit_255]
  simp [h]

theorem mask_step (i : Nat) :
    ((2 ^ (i % 8) <<< 1) &&& 255 = 0 → (i + 1) % 8 = 0 ∧ (i + 1) / 8 = i / 8 + 1) ∧
    ((2 ^ (i % 8) <<< 1) &&& 255 ≠ 0 →
      (2 ^ (i % 8) <<< 1) &&& 255 = 2 ^ ((i + 1) % 8) ∧ (i + 1) / 8 = i / 8) := by
  have hsl : 2 ^ (i % 8) <<< 1 = 2 ^ (i % 8 + 1) := by
    rw [Nat.shiftLeft_eq, ← pow_add]
  by_cases h7 : i % 8 = 7
  · have hz : (2 ^ (i % 8) <<< 1) &&& 255 = 0 := by rw [hsl, h7]; decide
    refine ⟨fun _ => ⟨by omega, by omega⟩, fun hne => absurd hz hne⟩
  · have hnz : (2 ^ (i % 8) <<< 1) &&& 255 = 2 ^ ((i + 1) % 8) := by
      rw [hsl, pow_mod8_and_255 _ (by omega), show (i + 1) % 8 = i % 8 + 1 from by omega]
    have hp : (0 : Nat) < 2 ^ ((i + 1) % 8) := Nat.pos_pow_of_pos _ (by norm_num)
    refine ⟨fun h0 => absurd (hnz ▸ h0) (by omega), fun _ => ⟨hnz, by omega⟩⟩
theorem searchRun_shape (ℓ : Nat) :
    ∀ (fuel i : Nat) (s : PassState),
      s.m = i + 1 → s.n = i / 8 → s.k = 2 ^ (i % 8) → s.x3 = false →
      i + fuel ≤ 64 →
      ((searchRun ℓ s fuel).x3 = false ∧ (searchRun ℓ s fuel).m = i + fuel + 1 ∧
       (searchRun ℓ s fuel).n = (i + fuel) / 8 ∧
       (searchRun ℓ s fuel).k = 2 ^ ((i + fuel) % 8)) ∨
      ((searchRun ℓ s fuel).x3 = true ∧ (searchRun ℓ s fuel).m < i + fuel + 1) := by
  intro fuel
  induction fuel with
  | zero =>
    intro i s hm hn hk hx _
    left
    exact ⟨hx, by rw [searchRun]; omega, hn, hk⟩
  | succ f ih =>
    intro i s hm hn hk hx hle
    have hn8 : s.n < 8 := by rw [hn]; exact Nat.div_lt_of_lt_mul (by omega)
    rw [searchRun]
    by_cases h3 : (s.parts.all (fun d => idBit d (s.m - 1))) = true ∧
        (s.parts.all (fun d => !idBit d (s.m - 1))) = true
    · rw [searchStep_break ℓ s hx hn8 h3.1 h3.2, searchRun_stall ℓ f _ rfl]
      right
      refine ⟨rfl, ?_⟩
      show s.m < i + (f + 1) + 1
      omega
    · obtain ⟨sm, sx, sn, sk⟩ := searchStep_advance_shape ℓ s hx hn8 h3
      have hms := mask_step i
      by_cases hk0 : (s.k <<< 1) &&& 255 = 0
      · rw [hk] at hk0
        have h0 := hms.1 hk0
        have := ih (i + 1) (searchStep ℓ s)
          (by rw [sm, hm]) (by rw [sn, hk, if_pos hk0, hn, h0.2])
          (by rw [sk, hk, if_pos hk0, h0.1]; norm_num) sx (by omega)
        rw [show i + 1 + f = i + (f + 1) from by omega] at this
        exact this
      · rw [hk] at hk0
        have h0 := hms.2 hk0
        have := ih (i + 1) (searchStep ℓ s)
          (by rw [sm, hm]) (by rw [sn, hk, if_neg hk0, hn, h0.2])
          (by rw [sk, hk, if_neg hk0, h0.1]) sx (by omega)
        rw [show i + 1 + f = i + (f + 1) from by omega] at this
        exact this
/-- Claim C3: when the search loop of Next is reached (presence seen and
not done), the candidate is accepted — Next returns true — iff the loop
ran through all 64 bits without the premature (1,1) break (x3 stays
false, equivalently m reached 65) and the CRC-8 of the first 8 ROM bytes
equals the buffer's stored 9th byte; whenever Next returns false it
resets lastDiscrep to 0 so the next call restarts the search from
scratch. -/
theorem next_validation (bus : List (List Nat)) (g : SearchGlobals)
    (h : ¬ (reset_pulse (busLine bus) ≠ 0 ∨ g.doneFlag = true)) :
    ((Next bus g).1 = true ↔
      ((searchRun g.lastDiscrep (initPass bus g) 64).x3 = false ∧
       dallas_crc8 ((searchRun g.lastDiscrep (initPass bus g) 64).ROM.take 8) =
         (searchRun g.lastDiscrep (initPass bus g) 64).ROM.getD 8 0)) ∧
    ((Next bus g).1 = false → (Next bus g).2.lastDiscrep = 0) := by
  have hshape := searchRun_shape g.lastDiscrep 64 0 (initPass bus g) rfl rfl rfl rfl (by omega)
  rw [Next, if_neg h]
  dsimp only
  rcases hshape with ⟨hx, hm, -, -⟩ | ⟨hx, hm⟩
  · by_cases hcrc : dallas_crc8 ((searchRun g.lastDiscrep (initPass bus g) 64).ROM.take 8)
        = (searchRun g.lastDiscrep (initPass bus g) 64).ROM.getD 8 0
    · rw [if_neg (by push_neg; exact ⟨by omega, hcrc⟩)]
      constructor
      · simp [hx, hcrc]
      · intro hfalse
        simp at hfalse
    · rw [if_pos (Or.inr hcrc)]
      constructor
      · constructor
        · intro hfalse
          simp at hfalse
        · intro hc
          exact absurd hc.2 hcrc
      · intro _
        rfl
  · rw [if_pos (Or.inl (by omega))]
    constructor
    · simp [hx]
    · intro _
      rfl

/-- Witness for next_validation: a one-device bus holding the CRC-valid
all-zero identifier, starting from the zero-initialized globals. -/
theorem next_validation_witness :
    (¬ (reset_pulse (busLine [[0, 0, 0, 0, 0, 0, 0, 0]]) ≠ 0 ∨
        initGlobals.doneFlag = true)) ∧
    ((Next [[0, 0, 0, 0, 0, 0, 0, 0]] initGlobals).1 = true ↔
      ((searchRun initGlobals.lastDiscrep
          (initPass [[0, 0, 0, 0, 0, 0, 0, 0]] initGlobals) 64).x3 = false ∧
       dallas_crc8 ((searchRun initGlobals.lastDiscrep
          (initPass [[0, 0, 0, 0, 0, 0, 0, 0]] initGlobals) 64).ROM.take 8) =
         (searchRun initGlobals.lastDiscrep
          (initPass [[0, 0, 0, 0, 0, 0, 0, 0]] initGlobals) 64).ROM.getD 8 0)) ∧
    ((Next [[0, 0, 0, 0, 0, 0, 0, 0]] initGlobals).1 = false →
      (Next [[0, 0, 0, 0, 0, 0, 0, 0]] initGlobals).2.lastDiscrep = 0) :=
  ⟨by decide,
   (next_validation [[0, 0, 0, 0, 0, 0, 0, 0]] initGlobals (by decide)).1,
   (next_validation [[0, 0, 0, 0, 0, 0, 0, 0]] initGlobals (by decide)).2⟩
theorem agreesBelow_iff (e d : List Nat) (i : Nat) :
    agreesBelow e d i = true ↔ ∀ j, j < i → idBit e j = idBit d j := by
  rw [agreesBelow, List.all_eq_true]
  constructor
  · intro h j hj
    have := h j (List.mem_range.mpr hj)
    exact beq_iff_eq.mp this
  · intro h j hj
    exact beq_iff_eq.mpr (h j (List.mem_range.mp hj))

theorem agreesBelow_refl (d : List Nat) (i : Nat) : agreesBelow d d i = true := by
  rw [agreesBelow_iff]
  intro _ _
  rfl

theorem agreesBelow_mono (e d : List Nat) (i j : Nat) (hij : j ≤ i)
    (h : agreesBelow e d i = true) : agreesBelow e d j = true := by
  rw [agreesBelow_iff] at h ⊢
  intro x hx
  exact h x (lt_of_lt_of_le hx hij)

theorem branchAt_iff (ids : List (List Nat)) (d : List Nat) (i : Nat) :
    branchAt ids d i = true ↔
      idBit d i = false ∧ ∃ e ∈ ids, agreesBelow e d i = true ∧ idBit e i = true := by
  rw [branchAt, Bool.and_eq_true, Bool.not_eq_true', List.any_eq_true]
  constructor
  · rintro ⟨h1, e, he, h2⟩
    rw [Bool.and_eq_true] at h2
    exact ⟨h1, e, he, h2⟩
  · rintro ⟨h1, e, he, h2, h3⟩
    refine ⟨h1, e, he, ?_⟩
    rw [Bool.and_eq_true]
    exact ⟨h2, h3⟩

theorem foldGreatest_char (p : Nat → Bool) :
    ∀ n, (foldGreatest p n = 0 ∧ ∀ i, i < n → p i = false) ∨
      (∃ m, m < n ∧ foldGreatest p n = m + 1 ∧ p m = true ∧
        ∀ i, m < i → i < n → p i = false) := by
  intro n
  induction n with
  | zero => left; exact ⟨rfl, fun i h => absurd h (by omega)⟩
  | succ n ih =>
    have hstep : foldGreatest p (n + 1) =
        (if p n then n + 1 else foldGreatest p n) := by
      rw [foldGreatest, List.range_succ, List.foldl_append]
      rfl
    by_cases hp : p n = true
    · right
      exact ⟨n, by omega, by rw [hstep, if_pos hp], hp, fun i h1 h2 => absurd h1 (by omega)⟩
    · have hp' : p n = false := by simp at hp; exact hp
      rcases ih with ⟨h0, hall⟩ | ⟨m, hm, heq, hpm, hnone⟩
      · left
        refine ⟨by rw [hstep, if_neg (by simp [hp']), h0], fun i hi => ?_⟩
        by_cases hin : i < n
        · exact hall i hin
        · rw [show i = n from by omega]; exact hp'
      · right
        refine ⟨m, by omega, by rw [hstep, if_neg (by simp [hp']), heq], hpm, fun i h1 h2 => ?_⟩
        by_cases hin : i < n
        · exact hnone i h1 hin
        · rw [show i = n from by omega]; exact hp'
theorem binVal_lt (bs : List Bool) : binVal bs < 2 ^ bs.length := by
  induction bs with
  | nil => rw [binVal]; norm_num
  | cons b bs ih =>
    rw [binVal, List.length_cons, pow_succ]
    by_cases hb : b = true
    · rw [hb, if_pos rfl]; omega
    · rw [if_neg (by simp [hb])]; omega

theorem binVal_append (xs ys : List Bool) :
    binVal (xs ++ ys) = binVal xs * 2 ^ ys.length + binVal ys := by
  induction xs with
  | nil => rw [List.nil_append, binVal]; omega
  | cons b bs ih =>
    rw [List.cons_append, binVal, binVal, ih, List.length_append, pow_add]
    by_cases hb : b = true
    · rw [hb, if_pos rfl, if_pos rfl]; ring
    · rw [if_neg (by simp [hb]), if_neg (by simp [hb])]; ring

theorem binVal_lt_of_split (p u v : List Bool) (hlen : u.length = v.length) :
    binVal (p ++ false :: u) < binVal (p ++ true :: v) := by
  rw [binVal_append, binVal_append, binVal, binVal]
  have h1 : binVal u < 2 ^ u.length := binVal_lt u
  have h2 : (false :: u).length = (true :: v).length := by simp [hlen]
  rw [h2, if_neg (by norm_num), if_pos rfl]
  rw [hlen] at h1
  omega

theorem bitsOf_split (d : List Nat) (i : Nat) (hi : i < 64) :
    bitsOf d 64 = bitsOf d i ++ idBit d i :: ((List.range (63 - i)).map
      (fun j => idBit d (i + 1 + j))) := by
  rw [bitsOf, bitsOf]
  rw [show (64 : Nat) = i + (64 - i) from by omega, List.range_add, List.map_append]
  congr 1
  rw [show 64 - i = (63 - i) + 1 from by omega, List.range_succ_eq_map]
  simp only [List.map_cons, List.map_map]
  congr 1
  refine List.map_congr_left ?_
  intro j _
  show idBit d (i + (j + 1)) = idBit d (i + 1 + j)
  congr 1
  omega

theorem key_lt_of_branch (e t : List Nat) (i : Nat) (hi : i < 64)
    (hagree : agreesBelow e t i = true) (he : idBit e i = false)
    (ht : idBit t i = true) : key e < key t := by
  rw [key, key, bitsOf_split e i hi, bitsOf_split t i hi, he, ht]
  rw [show bitsOf e i = bitsOf t i from by
    rw [bitsOf, bitsOf]
    refine List.map_congr_left ?_
    intro j hj
    exact (agreesBelow_iff e t i).mp hagree j (List.mem_range.mp hj)]
  exact binVal_lt_of_split _ _ _ (by simp)
theorem bits_eq_or_least_diff (e t : List Nat) :
    (∀ i, i < 64 → idBit e i = idBit t i) ∨
    (∃ i, i < 64 ∧ agreesBelow e t i = true ∧ idBit e i ≠ idBit t i) := by
  by_cases h : ∀ i, i < 64 → idBit e i = idBit t i
  · exact Or.inl h
  · push_neg at h
    obtain ⟨i, hi, hne⟩ := h
    have hex : ∃ j, j < 64 ∧ idBit e j ≠ idBit t j := ⟨i, hi, hne⟩
    right
    refine ⟨Nat.find hex, (Nat.find_spec hex).1, ?_, (Nat.find_spec hex).2⟩
    rw [agreesBelow_iff]
    intro j hj
    have hflt : Nat.find hex < 64 := (Nat.find_spec hex).1
    have := Nat.find_min hex hj
    push_neg at this
    by_contra hne2
    exact hne2 (this (by omega : j < 64))

theorem key_eq_of_bits (e t : List Nat)
    (h : ∀ i, i < 64 → idBit e i = idBit t i) : key e = key t := by
  rw [key, key, bitsOf, bitsOf]
  congr 1
  refine List.map_congr_left ?_
  intro j hj
  exact h j (List.mem_range.mp hj)

theorem key_lt_iff (e t : List Nat) :
    key e < key t ↔
    ∃ i, i < 64 ∧ agreesBelow e t i = true ∧ idBit e i = false ∧ idBit t i = true := by
  constructor
  · intro hlt
    rcases bits_eq_or_least_diff e t with hall | ⟨i, hi, hagree, hne⟩
    · exact absurd (key_eq_of_bits e t hall) (by omega)
    · cases hbe : idBit e i with
      | false =>
        cases hbt : idBit t i with
        | false => rw [hbe, hbt] at hne; exact absurd rfl hne
        | true => exact ⟨i, hi, hagree, hbe, hbt⟩
      | true =>
        cases hbt : idBit t i with
        | false =>
          have hsym : agreesBelow t e i = true := by
            rw [agreesBelow_iff] at hagree ⊢
            intro j hj
            exact (hagree j hj).symm
          have := key_lt_of_branch t e i hi hsym hbt hbe
          omega
        | true => rw [hbe, hbt] at hne; exact absurd rfl hne
  · rintro ⟨i, hi, hagree, hbe, hbt⟩
    exact key_lt_of_branch e t i hi hagree hbe hbt

theorem id_eq_of_bits (e t : List Nat) (hwe : wfId e) (hwt : wfId t)
    (h : ∀ i, i < 64 → idBit e i = idBit t i) : e = t := by
  obtain ⟨hle, hbe⟩ := hwe
  obtain ⟨hlt, hbt⟩ := hwt
  refine List.ext_getElem (by omega) ?_
  intro b hb1 hb2
  have hbyte_e : e[b] < 256 := hbe _ (List.getElem_mem hb1)
  have hbyte_t : t[b] < 256 := hbt _ (List.getElem_mem hb2)
  refine Nat.eq_of_testBit_eq ?_
  intro s
  by_cases hs : s < 8
  · have hbit := h (b * 8 + s) (by omega)
    rw [idBit, idBit] at hbit
    rw [show (b * 8 + s) / 8 = b from by omega, show (b * 8 + s) % 8 = s from by omega] at hbit
    have hge : e.getD b 0 = e[b] := List.getD_eq_getElem e 0 hb1
    have hgt : t.getD b 0 = t[b] := List.getD_eq_getElem t 0 hb2
    rw [hge, hgt] at hbit
    exact hbit
  · rw [testBit_high_byte _ _ hbyte_e (by omega), testBit_high_byte _ _ hbyte_t (by omega)]

theorem key_inj (e t : List Nat) (hwe : wfId e) (hwt : wfId t)
    (h : key e = key t) : e = t := by
  refine id_eq_of_bits e t hwe hwt ?_
  intro i hi
  by_contra hne
  rcases bits_eq_or_least_diff e t with hall | ⟨j, hj, hagree, hneq⟩
  · exact hne (hall i hi)
  · cases hbe : idBit e j with
    | false =>
      cases hbt : idBit t j with
      | false => rw [hbe, hbt] at hneq; exact absurd rfl hneq
      | true => have := key_lt_of_branch e t j hj hagree hbe hbt; omega
    | true =>
      cases hbt : idBit t j with
      | false =>
        have hsym : agreesBelow t e j = true := by
          rw [agreesBelow_iff] at hagree ⊢
          intro x hx
          exact (hagree x hx).symm
        have := key_lt_of_branch t e j hj hsym hbt hbe
        omega
      | true => rw [hbe, hbt] at hneq; exact absurd rfl hneq

theorem argminKey_mem : ∀ (l : List (List Nat)), l ≠ [] → argminKey l ∈ l := by
  intro l
  induction l with
  | nil => intro h; exact absurd rfl h
  | cons d rest ih =>
    intro _
    cases rest with
    | nil => rw [argminKey]; exact List.mem_singleton.mpr rfl
    | cons e rest2 =>
      rw [argminKey]
      by_cases hle : key d ≤ key (argminKey (e :: rest2))
      · rw [if_pos hle]; exact List.mem_cons_self _ _
      · rw [if_neg hle]; exact List.mem_cons_of_mem _ (ih (by simp))

theorem argminKey_le : ∀ (l : List (List Nat)), ∀ e ∈ l, key (argminKey l) ≤ key e := by
  intro l
  induction l with
  | nil => intro e he; exact absurd he (List.not_mem_nil e)
  | cons d rest ih =>
    intro e he
    cases rest with
    | nil =>
      rw [argminKey]
      rcases List.mem_singleton.mp he with h
      rw [h]
    | cons f rest2 =>
      rw [argminKey]
      rcases List.mem_cons.mp he with h | h
      · by_cases hle : key d ≤ key (argminKey (f :: rest2))
        · rw [if_pos hle, h]
        · rw [if_neg hle, h]; omega
      · by_cases hle : key d ≤ key (argminKey (f :: rest2))
        · rw [if_pos hle]; exact le_trans hle (ih e h)
        · rw [if_neg hle]; exact ih e h
theorem searchStep_forced1 (ℓ : Nat) (s : PassState) (hx : s.x3 = false) (hn8 : s.n < 8)
    (hr1 : s.parts.all (fun d => idBit d (s.m - 1)) = true)
    (hr2 : s.parts.all (fun d => !idBit d (s.m - 1)) = false) :
    searchStep ℓ s =
      { ROM := s.ROM.set s.n ((s.ROM.getD s.n 0) ||| s.k),
        m := s.m + 1,
        n := if (s.k <<< 1) &&& 255 = 0 then s.n + 1 else s.n,
        k := if (s.k <<< 1) &&& 255 = 0 then 1 else (s.k <<< 1) &&& 255,
        discrepMarker := s.discrepMarker,
        parts := s.parts.filter (fun d => idBit d (s.m - 1) = true),
        x3 := false } := by
  rw [searchStep, if_neg (by simp [hx]; omega)]
  dsimp only
  rw [hr1, hr2]
  norm_num
  rw [← hx]
  refine ⟨fun h => absurd (by decide) h, ?_, ?_, rfl⟩
  · by_cases hk0 : s.k <<< 1 &&& 255 = 0
    · rw [if_pos hk0, if_pos hk0, hk0]
    · rw [if_neg hk0, if_neg hk0]
  · refine List.filter_congr ?_
    intro d _
    rw [show (decide ((2 : Nat) >>> 1 = 1)) = true from by decide]
    cases h : idBit d (s.m - 1) <;> simp

theorem searchStep_forced0 (ℓ : Nat) (s : PassState) (hx : s.x3 = false) (hn8 : s.n < 8)
    (hr1 : s.parts.all (fun d => idBit d (s.m - 1)) = false)
    (hr2 : s.parts.all (fun d => !idBit d (s.m - 1)) = true) :
    searchStep ℓ s =
      { ROM := s.ROM.set s.n ((s.ROM.getD s.n 0) &&& (255 ^^^ s.k)),
        m := s.m + 1,
        n := if (s.k <<< 1) &&& 255 = 0 then s.n + 1 else s.n,
        k := if (s.k <<< 1) &&& 255 = 0 then 1 else (s.k <<< 1) &&& 255,
        discrepMarker := s.discrepMarker,
        parts := s.parts.filter (fun d => idBit d (s.m - 1) = false),
        x3 := false } := by
  rw [searchStep, if_neg (by simp [hx]; omega)]
  dsimp only
  rw [hr1, hr2]
  norm_num
  rw [← hx]
  refine ⟨fun h => absurd h (by decide), ?_, ?_, rfl⟩
  · by_cases hk0 : s.k <<< 1 &&& 255 = 0
    · rw [if_pos hk0, if_pos hk0, hk0]
    · rw [if_neg hk0, if_neg hk0]
  · refine List.filter_congr ?_
    intro d _
    rw [show (decide ((1 : Nat) >>> 1 = 1)) = false from by decide]
    cases h : idBit d (s.m - 1) <;> simp

theorem searchStep_discrep2 (ℓ : Nat) (s : PassState) (hx : s.x3 = false) (hn8 : s.n < 8)
    (hr1 : s.parts.all (fun d => idBit d (s.m - 1)) = false)
    (hr2 : s.parts.all (fun d => !idBit d (s.m - 1)) = false) :
    searchStep ℓ s =
      (let g : Bool := if s.m < ℓ then decide ((s.ROM.getD s.n 0) &&& s.k > 0)
                       else decide (s.m = ℓ)
       { ROM := if g = true then s.ROM.set s.n ((s.ROM.getD s.n 0) ||| s.k)
                else s.ROM.set s.n ((s.ROM.getD s.n 0) &&& (255 ^^^ s.k)),
         m := s.m + 1,
         n := if (s.k <<< 1) &&& 255 = 0 then s.n + 1 else s.n,
         k := if (s.k <<< 1) &&& 255 = 0 then 1 else (s.k <<< 1) &&& 255,
         discrepMarker := if g = false then s.m else s.discrepMarker,
         parts := s.parts.filter (fun d => idBit d (s.m - 1) = g),
         x3 := false }) := by
  rw [searchStep, if_neg (by simp [hx]; omega)]
  dsimp only
  rw [hr1, hr2]
  norm_num
  rw [← hx]
  refine ⟨?_, rfl⟩
  by_cases hk0 : s.k <<< 1 &&& 255 = 0
  · rw [if_pos hk0, if_pos hk0, hk0]
  · rw [if_neg hk0, if_neg hk0]
theorem foldGreatest_succ (p : Nat → Bool) (n : Nat) :
    foldGreatest p (n + 1) = (if p n then n + 1 else foldGreatest p n) := by
  rw [foldGreatest, List.range_succ, List.foldl_append]
  rfl

theorem agreesBelow_succ (e t : List Nat) (c : Nat) :
    agreesBelow e t (c + 1) = (agreesBelow e t c && (idBit e c == idBit t c)) := by
  rw [agreesBelow, agreesBelow, List.range_succ, List.all_append]
  simp

theorem idBit_set_or (rom : List Nat) (c j : Nat) (hlen : rom.length = 9)
    (hc : c < 64) (hj : j < 64) :
    idBit (rom.set (c / 8) ((rom.getD (c / 8) 0) ||| 2 ^ (c % 8))) j =
      (if j = c then true else idBit rom j) := by
  by_cases hjc : j = c
  · rw [if_pos hjc, hjc, idBit]
    rw [getD_set_self _ _ _ (by omega : c / 8 < rom.length)]
    exact testBit_or_pow _ _
  · rw [if_neg hjc, idBit, idBit]
    by_cases hbyte : j / 8 = c / 8
    · rw [hbyte, getD_set_self _ _ _ (by omega : c / 8 < rom.length)]
      exact testBit_or_pow_ne _ _ _ (by omega)
    · rw [getD_set_ne _ _ _ _ hbyte]

theorem idBit_set_and (rom : List Nat) (c j : Nat) (hlen : rom.length = 9)
    (hc : c < 64) (hj : j < 64) :
    idBit (rom.set (c / 8) ((rom.getD (c / 8) 0) &&& (255 ^^^ 2 ^ (c % 8)))) j =
      (if j = c then false else idBit rom j) := by
  by_cases hjc : j = c
  · rw [if_pos hjc, hjc, idBit]
    rw [getD_set_self _ _ _ (by omega : c / 8 < rom.length)]
    exact testBit_and_clear _ _ (by omega)
  · rw [if_neg hjc, idBit, idBit]
    by_cases hbyte : j / 8 = c / 8
    · rw [hbyte, getD_set_self _ _ _ (by omega : c / 8 < rom.length)]
      exact testBit_and_clear_ne _ _ _ (by omega) (by omega)
    · rw [getD_set_ne _ _ _ _ hbyte]

theorem getD_byte_lt (rom : List Nat) (n : Nat) (hb : ∀ b ∈ rom, b < 256) :
    rom.getD n 0 < 256 := by
  by_cases hn : n < rom.length
  · rw [List.getD_eq_getElem rom 0 hn]
    exact hb _ (List.getElem_mem hn)
  · rw [List.getD_eq_default rom 0 (by omega)]
    norm_num

theorem or_pow_byte_lt (b t : Nat) (hb : b < 256) (ht : t < 8) :
    b ||| 2 ^ t < 256 := by
  have h1 : b < 2 ^ 8 := by norm_num [hb]
  have h2 : 2 ^ t < 2 ^ 8 := Nat.pow_lt_pow_right (by norm_num) ht
  calc b ||| 2 ^ t < 2 ^ 8 := Nat.or_lt_two_pow h1 h2
  _ = 256 := by norm_num

theorem and_byte_lt (b x : Nat) (hb : b < 256) : b &&& x < 256 :=
  lt_of_le_of_lt (Nat.and_le_left) hb
theorem all_false_exists (l : List (List Nat)) (p : List Nat → Bool)
    (h : l.all p = false) : ∃ x ∈ l, p x = false := by
  by_contra hco
  push_neg at hco
  have hall : l.all p = true := List.all_eq_true.mpr (fun x hx => by
    cases hpx : p x
    · exact absurd hpx (hco x hx)
    · rfl)
  rw [h] at hall
  exact Bool.false_ne_true hall

theorem beq_eq_decide (a b : Bool) : (a == b) = decide (a = b) := by
  cases a <;> cases b <;> decide

theorem passInv_step (ids : List (List Nat)) (ℓ : Nat) (r t : List Nat) (c : Nat)
    (s : PassState) (hT : TargetSpec ids ℓ r t) (hc : c < 64)
    (hI : PassInv ids ℓ r t c s) :
    PassInv ids ℓ r t (c + 1) (searchStep ℓ s) := by
  obtain ⟨hx, hm, hn, hk, hlen, hbytes, hlo, hhi, h8, hparts, hmark⟩ := hI
  have hn8 : s.n < 8 := by rw [hn]; omega
  have hmc : s.m - 1 = c := by omega
  have htp : t ∈ s.parts := by
    rw [hparts]
    exact List.mem_filter.mpr ⟨hT.tmem, agreesBelow_refl t c⟩
  have hmem : ∀ e, e ∈ s.parts ↔ (e ∈ ids ∧ agreesBelow e t c = true) := by
    intro e
    rw [hparts, List.mem_filter]
  have hms := mask_step c
  -- facts applying to all advancing cases, as functions of the chosen bit g
  have hnk : (if (s.k <<< 1) &&& 255 = 0 then s.n + 1 else s.n) = (c + 1) / 8 ∧
      (if (s.k <<< 1) &&& 255 = 0 then 1 else (s.k <<< 1) &&& 255) = 2 ^ ((c + 1) % 8) := by
    by_cases hk0 : (s.k <<< 1) &&& 255 = 0
    · have hk0' := hk0
      rw [hk] at hk0'
      obtain ⟨hmod, hdiv⟩ := hms.1 hk0'
      constructor
      · rw [if_pos hk0, hn, hdiv]
      · rw [if_pos hk0, hmod]
        norm_num
    · have hk0' := hk0
      rw [hk] at hk0'
      obtain ⟨hval, hdiv⟩ := hms.2 hk0'
      constructor
      · rw [if_neg hk0, hn, hdiv]
      · rw [if_neg hk0, hk, hval]
  -- ROM-update facts for the two write forms
  have hor_lo : ∀ j, j < c + 1 →
      idBit (s.ROM.set s.n ((s.ROM.getD s.n 0) ||| s.k)) j =
        (if j = c then true else idBit s.ROM j) := by
    intro j hj
    rw [hn, hk]
    exact idBit_set_or s.ROM c j hlen hc (by omega)
  have hor_hi : ∀ j, c + 1 ≤ j → j < 64 →
      idBit (s.ROM.set s.n ((s.ROM.getD s.n 0) ||| s.k)) j = idBit s.ROM j := by
    intro j hj1 hj2
    rw [hn, hk, idBit_set_or s.ROM c j hlen hc hj2, if_neg (by omega)]
  have hand_lo : ∀ j, j < c + 1 →
      idBit (s.ROM.set s.n ((s.ROM.getD s.n 0) &&& (255 ^^^ s.k))) j =
        (if j = c then false else idBit s.ROM j) := by
    intro j hj
    rw [hn, hk]
    exact idBit_set_and s.ROM c j hlen hc (by omega)
  have hand_hi : ∀ j, c + 1 ≤ j → j < 64 →
      idBit (s.ROM.set s.n ((s.ROM.getD s.n 0) &&& (255 ^^^ s.k))) j = idBit s.ROM j := by
    intro j hj1 hj2
    rw [hn, hk, idBit_set_and s.ROM c j hlen hc hj2, if_neg (by omega)]
  have hset_len : ∀ v, (s.ROM.set s.n v).length = 9 := by
    intro v
    rw [List.length_set, hlen]
  have hset8 : ∀ v, (s.ROM.set s.n v).getD 8 0 = r.getD 8 0 := by
    intro v
    rw [getD_set_ne _ _ _ _ (by omega), h8]
  have hor_bytes : ∀ b ∈ s.ROM.set s.n ((s.ROM.getD s.n 0) ||| s.k), b < 256 := by
    intro b hb
    rcases List.mem_or_eq_of_mem_set hb with h | h
    · exact hbytes b h
    · rw [h, hk]
      exact or_pow_byte_lt _ _ (getD_byte_lt s.ROM s.n hbytes) (by omega)
  have hand_bytes : ∀ b ∈ s.ROM.set s.n ((s.ROM.getD s.n 0) &&& (255 ^^^ s.k)), b < 256 := by
    intro b hb
    rcases List.mem_or_eq_of_mem_set hb with h | h
    · exact hbytes b h
    · rw [h]
      exact and_byte_lt _ _ (getD_byte_lt s.ROM s.n hbytes)
  have hfilter : ∀ g : Bool, g = idBit t c →
      s.parts.filter (fun d => idBit d (s.m - 1) = g) =
        ids.filter (fun e => agreesBelow e t (c + 1)) := by
    intro g hg
    rw [hmc, hparts, List.filter_filter]
    refine List.filter_congr ?_
    intro e _
    rw [agreesBelow_succ, hg, beq_eq_decide]
    rw [Bool.and_comm]
  -- the target bit at position c in the three read situations
  cases hr1 : s.parts.all (fun d => idBit d (s.m - 1)) with
  | true =>
    have htc : idBit t c = true := by
      have := List.all_eq_true.mp hr1 t htp
      rw [hmc] at this
      exact this
    have hr2 : s.parts.all (fun d => !idBit d (s.m - 1)) = false := by
      cases hr2v : s.parts.all (fun d => !idBit d (s.m - 1)) with
      | false => rfl
      | true =>
        have := List.all_eq_true.mp hr2v t htp
        rw [hmc] at this
        simp [htc] at this
    rw [searchStep_forced1 ℓ s hx hn8 hr1 hr2]
    have hbr : branchAt ids t c = false := by
      rw [branchAt, htc]
      rfl
    exact { hx := rfl, hm := by dsimp only; omega, hn := hnk.1, hk := hnk.2,
            hlen := hset_len _, hbytes := hor_bytes,
            hbits_lo := fun j hj => by
              dsimp only
              rw [hor_lo j hj]
              by_cases hjc : j = c
              · rw [if_pos hjc, hjc, htc]
              · rw [if_neg hjc]
                exact hlo j (by omega),
            hbits_hi := fun j hj1 hj2 => by
              dsimp only
              rw [hor_hi j hj1 hj2]
              exact hhi j (by omega) hj2,
            hcell8 := hset8 _,
            hparts := by
              dsimp only
              rw [hfilter true htc.symm],
            hmark := by
              dsimp only
              rw [foldGreatest_succ, hbr, if_neg (by norm_num), hmark] }
  | false =>
    cases hr2 : s.parts.all (fun d => !idBit d (s.m - 1)) with
    | true =>
      have htc : idBit t c = false := by
        have := List.all_eq_true.mp hr2 t htp
        rw [hmc] at this
        cases hv : idBit t c
        · rfl
        · rw [hv] at this; exact absurd this (by decide)
      rw [searchStep_forced0 ℓ s hx hn8 hr1 hr2]
      have hbr : branchAt ids t c = false := by
        cases hB : branchAt ids t c with
        | false => rfl
        | true =>
          obtain ⟨-, e, hei, hea, heb⟩ := (branchAt_iff ids t c).mp hB
          have hep : e ∈ s.parts := (hmem e).mpr ⟨hei, hea⟩
          have := List.all_eq_true.mp hr2 e hep
          rw [hmc, heb] at this
          exact absurd this (by decide)
      exact { hx := rfl, hm := by dsimp only; omega, hn := hnk.1, hk := hnk.2,
              hlen := hset_len _, hbytes := hand_bytes,
              hbits_lo := fun j hj => by
                dsimp only
                rw [hand_lo j hj]
                by_cases hjc : j = c
                · rw [if_pos hjc, hjc, htc]
                · rw [if_neg hjc]
                  exact hlo j (by omega),
              hbits_hi := fun j hj1 hj2 => by
                dsimp only
                rw [hand_hi j hj1 hj2]
                exact hhi j (by omega) hj2,
              hcell8 := hset8 _,
              hparts := by
                dsimp only
                rw [hfilter false htc.symm],
              hmark := by
                dsimp only
                rw [foldGreatest_succ, hbr, if_neg (by norm_num), hmark] }
    | false =>
      -- discrepancy: both reads 0
      obtain ⟨e1, he1p, he1b⟩ := all_false_exists _ _ hr2
      have he1b' : idBit e1 c = true := by
        rw [hmc] at he1b
        cases hv : idBit e1 c
        · rw [hv] at he1b; exact absurd he1b (by decide)
        · rfl
      obtain ⟨e0, he0p, he0b⟩ := all_false_exists _ _ hr1
      have he0b' : idBit e0 c = false := by
        rw [hmc] at he0b
        cases hv : idBit e0 c
        · rfl
        · rw [hv] at he0b; exact absurd he0b (by decide)
      rw [searchStep_discrep2 ℓ s hx hn8 hr1 hr2]
      set g : Bool := (if s.m < ℓ then decide ((s.ROM.getD s.n 0) &&& s.k > 0)
                       else decide (s.m = ℓ)) with hgdef
      have hgt : g = idBit t c := by
        rw [hgdef]
        by_cases hml : s.m < ℓ
        · rw [if_pos hml]
          have hrom : decide ((s.ROM.getD s.n 0) &&& s.k > 0) = idBit s.ROM c := by
            rw [hn, hk, idBit]
            cases hv : (s.ROM.getD (c / 8) 0).testBit (c % 8)
            · apply decide_eq_false
              rw [Nat.and_two_pow, hv]
              norm_num
            · apply decide_eq_true
              rw [Nat.and_two_pow, hv]
              simp [Nat.two_pow_pos]
          rw [hrom, hhi c (le_refl c) hc]
          exact (hT.trep c (by omega)).symm ▸ rfl
        · by_cases hme : s.m = ℓ
          · rw [if_neg hml, decide_eq_true hme]
            have := hT.tone (by omega)
            rw [show ℓ - 1 = c from by omega] at this
            exact this.symm
          · rw [if_neg hml, decide_eq_false hme]
            cases hv : idBit t c with
            | false => rfl
            | true =>
              exfalso
              refine hT.tmin c hc (by omega) e0 ((hmem e0).mp he0p).1
                ((hmem e0).mp he0p).2 he0b' hv
      have hbr : branchAt ids t c = (!idBit t c) := by
        cases hv : idBit t c with
        | false =>
          rw [Bool.not_false]
          refine (branchAt_iff ids t c).mpr ⟨hv, e1, ((hmem e1).mp he1p).1,
            ((hmem e1).mp he1p).2, he1b'⟩
        | true =>
          rw [Bool.not_true, branchAt, hv]
          rfl
      refine { hx := rfl, hm := by dsimp only; omega, hn := hnk.1, hk := hnk.2,
               hlen := ?_, hbytes := ?_,
               hbits_lo := ?_, hbits_hi := ?_, hcell8 := ?_,
               hparts := by
                 dsimp only
                 rw [hfilter g hgt],
               hmark := ?_ }
      · dsimp only
        by_cases hgv : g = true
        · rw [if_pos hgv]; exact hset_len _
        · rw [if_neg hgv]; exact hset_len _
      · dsimp only
        by_cases hgv : g = true
        · rw [if_pos hgv]; exact hor_bytes
        · rw [if_neg hgv]; exact hand_bytes
      · intro j hj
        dsimp only
        by_cases hgv : g = true
        · rw [if_pos hgv, hor_lo j hj]
          by_cases hjc : j = c
          · rw [if_pos hjc, hjc, ← hgt, hgv]
          · rw [if_neg hjc]; exact hlo j (by omega)
        · rw [if_neg hgv, hand_lo j hj]
          by_cases hjc : j = c
          · rw [if_pos hjc, hjc, ← hgt]
            cases hgb : g
            · rfl
            · exact absurd hgb hgv
          · rw [if_neg hjc]; exact hlo j (by omega)
      · intro j hj1 hj2
        dsimp only
        by_cases hgv : g = true
        · rw [if_pos hgv, hor_hi j hj1 hj2]; exact hhi j (by omega) hj2
        · rw [if_neg hgv, hand_hi j hj1 hj2]; exact hhi j (by omega) hj2
      · dsimp only
        by_cases hgv : g = true
        · rw [if_pos hgv]; exact hset8 _
        · rw [if_neg hgv]; exact hset8 _
      · dsimp only
        rw [foldGreatest_succ, hbr]
        cases hv : idBit t c with
        | false =>
          have hgf : g = false := by rw [hgt]; exact hv
          rw [show (!false) = true from rfl, if_pos rfl, hgf]
          rw [if_pos rfl, hm]
        | true =>
          have hgtr : g = true := by rw [hgt]; exact hv
          rw [show (!true) = false from rfl,
            if_neg (show ¬ (false = true) from by decide), hgtr]
          rw [if_neg (show ¬ (true = false) from by decide), hmark]
theorem passInv_run (ids : List (List Nat)) (ℓ : Nat) (r t : List Nat)
    (hT : TargetSpec ids ℓ r t) :
    ∀ (fuel c : Nat) (s : PassState), PassInv ids ℓ r t c s → c + fuel ≤ 64 →
      PassInv ids ℓ r t (c + fuel) (searchRun ℓ s fuel) := by
  intro fuel
  induction fuel with
  | zero =>
    intro c s hI _
    rw [searchRun]
    exact hI
  | succ f ih =>
    intro c s hI hle
    rw [searchRun]
    have := ih (c + 1) (searchStep ℓ s) (passInv_step ids ℓ r t c s hT (by omega) hI) (by omega)
    rw [show c + 1 + f = c + (f + 1) from by omega] at this
    exact this

theorem passInv_init (ids : List (List Nat)) (g : SearchGlobals) (t : List Nat)
    (hok : okGlobals g) :
    PassInv ids g.lastDiscrep g.ROM t 0 (initPass ids g) := by
  obtain ⟨hlen, hbytes, -⟩ := hok
  refine { hx := rfl, hm := rfl, hn := rfl, hk := rfl,
           hlen := hlen, hbytes := hbytes,
           hbits_lo := fun j hj => absurd hj (by omega),
           hbits_hi := fun j _ _ => rfl,
           hcell8 := rfl,
           hparts := ?_,
           hmark := rfl }
  show ids = ids.filter (fun e => agreesBelow e t 0)
  symm
  rw [List.filter_eq_self]
  intro e _
  rw [agreesBelow_iff]
  intro j hj
  exact absurd hj (by omega)

theorem take8_eq_target (rom t : List Nat) (hlen : rom.length = 9)
    (hbytes : ∀ b ∈ rom, b < 256) (hwt : wfId t)
    (hbits : ∀ j, j < 64 → idBit rom j = idBit t j) : rom.take 8 = t := by
  obtain ⟨hlt, hbt⟩ := hwt
  refine List.ext_getElem (by rw [List.length_take, hlen, hlt]; norm_num) ?_
  intro b hb1 hb2
  have hb8 : b < 8 := by
    rw [List.length_take, hlen] at hb1
    omega
  rw [List.getElem_take]
  have hbyr : rom[b] < 256 := hbytes _ (List.getElem_mem _)
  have hbyt : t[b] < 256 := hbt _ (List.getElem_mem _)
  refine Nat.eq_of_testBit_eq ?_
  intro s
  by_cases hs : s < 8
  · have hbit := hbits (b * 8 + s) (by omega)
    rw [idBit, idBit, show (b * 8 + s) / 8 = b from by omega,
      show (b * 8 + s) % 8 = s from by omega] at hbit
    rw [List.getD_eq_getElem rom 0 (by omega), List.getD_eq_getElem t 0 (by omega)] at hbit
    exact hbit
  · rw [testBit_high_byte _ _ hbyr (by omega), testBit_high_byte _ _ hbyt (by omega)]
theorem busLine_zero (ids : List (List Nat)) (hne : ids ≠ []) : busLine ids = 0 := by
  rw [busLine, if_neg]
  simp [List.isEmpty_iff, hne]

theorem Next_finds (ids : List (List Nat)) (g : SearchGlobals) (t : List Nat)
    (hne : ids ≠ []) (hwt : wfId t)
    (hok : okGlobals g) (hdone : g.doneFlag = false)
    (hT : TargetSpec ids g.lastDiscrep g.ROM t)
    (hcrc : dallas_crc8 t = 0) :
    (Next ids g).1 = true ∧
    (Next ids g).2.ROM.take 8 = t ∧
    (Next ids g).2.lastDiscrep = dmark ids t ∧
    (Next ids g).2.doneFlag = decide (dmark ids t = 0) ∧
    okGlobals (Next ids g).2 := by
  have hI := passInv_run ids g.lastDiscrep g.ROM t hT 64 0 (initPass ids g)
    (passInv_init ids g t hok) (by omega)
  rw [show (0 + 64) = 64 from rfl] at hI
  have htake : (searchRun g.lastDiscrep (initPass ids g) 64).ROM.take 8 = t :=
    take8_eq_target _ t hI.hlen hI.hbytes hwt (fun j hj => hI.hbits_lo j (by omega))
  have hcell : (searchRun g.lastDiscrep (initPass ids g) 64).ROM.getD 8 0 = 0 := by
    rw [hI.hcell8]
    exact hok.2.2
  have hcrc2 : dallas_crc8 ((searchRun g.lastDiscrep (initPass ids g) 64).ROM.take 8) =
      (searchRun g.lastDiscrep (initPass ids g) 64).ROM.getD 8 0 := by
    rw [htake, hcrc, hcell]
  have hm65 : ¬ ((searchRun g.lastDiscrep (initPass ids g) 64).m < 65 ∨
      dallas_crc8 ((searchRun g.lastDiscrep (initPass ids g) 64).ROM.take 8) ≠
        (searchRun g.lastDiscrep (initPass ids g) 64).ROM.getD 8 0) := by
    push_neg
    constructor
    · rw [hI.hm]
    · exact hcrc2
  rw [Next, if_neg (by rw [busLine_zero ids hne, hdone]; simp [reset_pulse])]
  dsimp only
  rw [if_neg hm65]
  refine ⟨rfl, htake, ?_, ?_, hI.hlen, hI.hbytes, hcell⟩
  · show (searchRun g.lastDiscrep (initPass ids g) 64).discrepMarker = dmark ids t
    rw [hI.hmark]
    rfl
  · show decide ((searchRun g.lastDiscrep (initPass ids g) 64).discrepMarker = 0) =
      decide (dmark ids t = 0)
    rw [hI.hmark]
    rfl
theorem mem_succAfter (ids : List (List Nat)) (t e : List Nat) :
    e ∈ succAfter ids t ↔ (e ∈ ids ∧ key t < key e) := by
  rw [succAfter, List.mem_filter, decide_eq_true_eq]

theorem agreesBelow_symm (e d : List Nat) (i : Nat) (h : agreesBelow e d i = true) :
    agreesBelow d e i = true := by
  rw [agreesBelow_iff] at h ⊢
  intro j hj
  exact (h j hj).symm

theorem targetSpec_first (ids : List (List Nat)) (r : List Nat) (hne : ids ≠ []) :
    TargetSpec ids 0 r (argminKey ids) := by
  refine { tmem := argminKey_mem ids hne,
           tmin := ?_,
           trep := fun i hi => absurd hi (by omega),
           tone := fun h => absurd h (by omega),
           tle := by omega }
  intro i hi _ e hei hagree hbe hbt
  have h1 : key e < key (argminKey ids) := key_lt_of_branch e _ i hi hagree hbe hbt
  have h2 := argminKey_le ids e hei
  omega

theorem no_gt_of_dmark_zero (ids : List (List Nat)) (t : List Nat) (htm : t ∈ ids)
    (hd : dmark ids t = 0) : ∀ e ∈ ids, ¬ key t < key e := by
  intro e hei hlt
  obtain ⟨i, hi, hagree, hbt, hbe⟩ := (key_lt_iff t e).mp hlt
  have hbr : branchAt ids t i = true :=
    (branchAt_iff ids t i).mpr ⟨hbt, e, hei, agreesBelow_symm t e i hagree, hbe⟩
  rcases foldGreatest_char (branchAt ids t) 64 with ⟨h0, hall⟩ | ⟨m, hm, heq, -, -⟩
  · rw [hall i hi] at hbr
    exact Bool.false_ne_true hbr
  · rw [dmark] at hd
    omega
theorem succ_target (ids : List (List Nat)) (t r2 : List Nat)
    (htm : t ∈ ids)
    (hr : ∀ i, i < 64 → idBit r2 i = idBit t i)
    (hd1 : 1 ≤ dmark ids t) :
    succAfter ids t ≠ [] ∧
    argminKey (succAfter ids t) ∈ ids ∧
    key t < key (argminKey (succAfter ids t)) ∧
    TargetSpec ids (dmark ids t) r2 (argminKey (succAfter ids t)) ∧
    (∀ e ∈ ids, key t < key e → key (argminKey (succAfter ids t)) ≤ key e) := by
  rcases foldGreatest_char (branchAt ids t) 64 with ⟨h0, -⟩ | ⟨m, hm64, heq, hbm, habove⟩
  · rw [dmark] at hd1
    omega
  have hdm : dmark ids t = m + 1 := heq
  obtain ⟨htbm, f, hfi, hfagree, hfb⟩ := (branchAt_iff ids t m).mp hbm
  have hfgt : key t < key f :=
    key_lt_of_branch t f m hm64 (agreesBelow_symm f t m hfagree) htbm hfb
  have hfS : f ∈ succAfter ids t := (mem_succAfter ids t f).mpr ⟨hfi, hfgt⟩
  have hSne : succAfter ids t ≠ [] := fun h => by rw [h] at hfS; exact absurd hfS (List.not_mem_nil f)
  have htS : argminKey (succAfter ids t) ∈ succAfter ids t := argminKey_mem _ hSne
  obtain ⟨htid, htgt⟩ := (mem_succAfter ids t _).mp htS
  have hmin : ∀ e ∈ ids, key t < key e → key (argminKey (succAfter ids t)) ≤ key e := by
    intro e hei hlt
    exact argminKey_le _ e ((mem_succAfter ids t e).mpr ⟨hei, hlt⟩)
  -- the branch position of t below the new target is exactly m
  obtain ⟨i, hi64, hagree, hbt, hbt2⟩ := (key_lt_iff t (argminKey (succAfter ids t))).mp htgt
  have him : i = m := by
    by_contra hne
    by_cases hgt : m < i
    · -- a branch point of t above m: contradicts maximality
      have : branchAt ids t i = true :=
        (branchAt_iff ids t i).mpr ⟨hbt, argminKey (succAfter ids t), htid,
          agreesBelow_symm t _ i hagree, hbt2⟩
      rw [habove i hgt hi64] at this
      exact Bool.false_ne_true this
    · -- a branch below m: f would be a smaller successor
      have hilt : i < m := by omega
      have hfagree2 : agreesBelow f (argminKey (succAfter ids t)) i = true := by
        rw [agreesBelow_iff]
        intro j hj
        have h1 : idBit f j = idBit t j := (agreesBelow_iff f t m).mp hfagree j (by omega)
        have h2 : idBit t j = idBit (argminKey (succAfter ids t)) j :=
          (agreesBelow_iff t _ i).mp hagree j hj
        rw [h1, h2]
      have hfi2 : idBit f i = false := by
        rw [(agreesBelow_iff f t m).mp hfagree i (by omega)]
        exact hbt
      have : key f < key (argminKey (succAfter ids t)) :=
        key_lt_of_branch f _ i hi64 hfagree2 hfi2 hbt2
      have := argminKey_le _ f hfS
      omega
  subst him
  refine ⟨hSne, htid, htgt, ?_, hmin⟩
  refine { tmem := htid, tmin := ?_, trep := ?_, tone := ?_, tle := by rw [hdm]; omega }
  · -- no device branches off below the new target at or after position dmark
    intro j hj64 hjge e hei heagree hbe hbt3
    have hji : i < j := by rw [hdm] at hjge; omega
    -- e agrees with t below i and takes the 1 branch at i, so key t < key e
    have hea_t : ∀ x, x < i → idBit e x = idBit t x := by
      intro x hx
      have h1 : idBit e x = idBit (argminKey (succAfter ids t)) x :=
        (agreesBelow_iff e _ j).mp heagree x (by omega)
      have h2 : idBit (argminKey (succAfter ids t)) x = idBit t x :=
        ((agreesBelow_iff t _ i).mp hagree x hx).symm
      rw [h1, h2]
    have heb_m : idBit e i = true := by
      have h1 : idBit e i = idBit (argminKey (succAfter ids t)) i :=
        (agreesBelow_iff e _ j).mp heagree i (by omega)
      rw [h1]
      exact hbt2
    have hegt : key t < key e := by
      refine key_lt_of_branch t e i hm64 ?_ htbm heb_m
      rw [agreesBelow_iff]
      intro x hx
      exact (hea_t x hx).symm
    have h1 : key (argminKey (succAfter ids t)) ≤ key e := hmin e hei hegt
    have h2 : key e < key (argminKey (succAfter ids t)) :=
      key_lt_of_branch e _ j hj64 heagree hbe hbt3
    omega
  · -- the buffer replays the new target bits below dmark - 1
    intro j hj
    rw [hdm] at hj
    have h1 : idBit r2 j = idBit t j := hr j (by omega)
    have h2 : idBit t j = idBit (argminKey (succAfter ids t)) j :=
      (agreesBelow_iff t _ i).mp hagree j (by omega)
    rw [h1, h2]
  · -- the new target takes the 1 branch at dmark - 1
    intro _
    rw [hdm, show i + 1 - 1 = i from by omega]
    exact hbt2
theorem idxWrites_map_snd (j : Int) : ∀ (l : List (List Nat)),
    (idxWrites j l).map (fun w => w.2) = l := by
  intro l
  induction l generalizing j with
  | nil => rfl
  | cons d rest ih =>
    rw [idxWrites, List.map_cons, ih (j + 1)]

theorem idxWrites_append_cons (acc : List (Int × List Nat)) (j : Int)
    (d : List Nat) (rest : List (List Nat)) :
    (acc ++ [(j, d)]) ++ idxWrites (j + 1) rest = acc ++ idxWrites j (d :: rest) := by
  rw [idxWrites, List.append_assoc]
  rfl

theorem idBit_of_take8 (rom d : List Nat) (h : rom.take 8 = d) :
    ∀ i, i < 64 → idBit rom i = idBit d i := by
  intro i hi
  rw [idBit, idBit, ← h, List.getD, List.getD, List.get?_take (by omega : i / 8 < 8)]

theorem succ_empty_of_dmark_zero (ids : List (List Nat)) (t : List Nat)
    (htm : t ∈ ids) (hd : dmark ids t = 0) : succAfter ids t = [] := by
  rw [succAfter, List.filter_eq_nil_iff]
  intro e hei
  rw [decide_eq_true_eq]
  exact no_gt_of_dmark_zero ids t htm hd e hei

theorem dmark_pos_of_succ_ne (ids : List (List Nat)) (t : List Nat)
    (htm : t ∈ ids) (hne : succAfter ids t ≠ []) : 1 ≤ dmark ids t := by
  by_contra h
  exact hne (succ_empty_of_dmark_zero ids t htm (by omega))

theorem succ_shrink (ids : List (List Nat)) (t t2 : List Nat)
    (hwf : ∀ d ∈ ids, wfId d) (hnd : ids.Nodup)
    (ht2 : t2 ∈ ids) (hgt : key t < key t2)
    (hmin : ∀ e ∈ ids, key t < key e → key t2 ≤ key e) :
    (succAfter ids t).length = (succAfter ids t2).length + 1 := by
  have hperm : List.Perm (succAfter ids t) (t2 :: succAfter ids t2) := by
    have hnd2 : (t2 :: succAfter ids t2).Nodup := by
      rw [List.nodup_cons]
      refine ⟨fun hc => ?_, List.Nodup.filter _ hnd⟩
      obtain ⟨-, hlt⟩ := (mem_succAfter ids t2 t2).mp hc
      omega
    have hnd1 : (succAfter ids t).Nodup := List.Nodup.filter _ hnd
    refine (List.perm_ext_iff_of_nodup hnd1 hnd2).mpr ?_
    intro e
    rw [mem_succAfter, List.mem_cons, mem_succAfter]
    constructor
    · rintro ⟨hei, hlt⟩
      rcases lt_or_eq_of_le (hmin e hei hlt) with h | h
      · exact Or.inr ⟨hei, h⟩
      · exact Or.inl (key_inj e t2 (hwf e hei) (hwf t2 ht2) h.symm)
    · rintro (h | ⟨hei, hlt⟩)
      · rw [h]; exact ⟨ht2, hgt⟩
      · exact ⟨hei, lt_trans hgt hlt⟩
  rw [hperm.length_eq, List.length_cons]

theorem succ_argmin_len (ids : List (List Nat))
    (hwf : ∀ d ∈ ids, wfId d) (hnd : ids.Nodup) (hne : ids ≠ []) :
    ids.length = (succAfter ids (argminKey ids)).length + 1 := by
  have hperm : List.Perm ids (argminKey ids :: succAfter ids (argminKey ids)) := by
    have hnd2 : (argminKey ids :: succAfter ids (argminKey ids)).Nodup := by
      rw [List.nodup_cons]
      refine ⟨fun hc => ?_, List.Nodup.filter _ hnd⟩
      obtain ⟨-, hlt⟩ := (mem_succAfter ids _ _).mp hc
      omega
    refine (List.perm_ext_iff_of_nodup hnd hnd2).mpr ?_
    intro e
    rw [List.mem_cons, mem_succAfter]
    constructor
    · intro hei
      by_cases heq : e = argminKey ids
      · exact Or.inl heq
      · refine Or.inr ⟨hei, ?_⟩
        rcases lt_or_eq_of_le (argminKey_le ids e hei) with h | h
        · exact h
        · exact absurd (key_inj e _ (hwf e hei) (hwf _ (argminKey_mem ids hne)) h.symm).symm
            (fun hh => heq hh.symm)
    · rintro (h | ⟨hei, -⟩)
      · rw [h]; exact argminKey_mem ids hne
      · exact hei
  rw [hperm.length_eq, List.length_cons]
theorem chainFrom_unfold (ids : List (List Nat)) (d : List Nat)
    (hwf : ∀ x ∈ ids, wfId x) (hnd : ids.Nodup) (hdm : d ∈ ids)
    (hne : succAfter ids d ≠ []) :
    chainFrom ids d =
      argminKey (succAfter ids d) :: chainFrom ids (argminKey (succAfter ids d)) := by
  have hd1 := dmark_pos_of_succ_ne ids d hdm hne
  obtain ⟨-, ht2id, htgt, -, hmin⟩ := succ_target ids d d hdm (fun i _ => rfl) hd1
  have hlen := succ_shrink ids d (argminKey (succAfter ids d)) hwf hnd ht2id htgt hmin
  rw [chainFrom, hlen, enumChain, if_neg hne]
  rfl

theorem chain_facts (ids : List (List Nat)) (hwf : ∀ x ∈ ids, wfId x)
    (hnd : ids.Nodup) :
    ∀ (n : Nat) (d : List Nat), d ∈ ids → (succAfter ids d).length = n →
      (chainFrom ids d).length = n ∧
      (∀ e ∈ chainFrom ids d, e ∈ ids ∧ key d < key e) ∧
      (∀ e ∈ ids, key d < key e → e ∈ chainFrom ids d) ∧
      (d :: chainFrom ids d).Nodup := by
  intro n
  induction n with
  | zero =>
    intro d hdm hlen
    have hne : succAfter ids d = [] := List.eq_nil_of_length_eq_zero hlen
    have hchain : chainFrom ids d = [] := by rw [chainFrom, hlen]; rfl
    refine ⟨by rw [hchain]; rfl, ?_, ?_, ?_⟩
    · intro e he
      rw [hchain] at he
      exact absurd he (List.not_mem_nil e)
    · intro e hei hgt
      have : e ∈ succAfter ids d := (mem_succAfter ids d e).mpr ⟨hei, hgt⟩
      rw [hne] at this
      exact absurd this (List.not_mem_nil e)
    · rw [hchain]
      exact List.nodup_singleton d
  | succ n ih =>
    intro d hdm hlen
    have hne : succAfter ids d ≠ [] := by
      intro h
      rw [h] at hlen
      simp at hlen
    have hd1 := dmark_pos_of_succ_ne ids d hdm hne
    obtain ⟨-, ht2id, htgt, -, hmin⟩ := succ_target ids d d hdm (fun i _ => rfl) hd1
    have hshrink := succ_shrink ids d (argminKey (succAfter ids d)) hwf hnd ht2id htgt hmin
    have ht2len : (succAfter ids (argminKey (succAfter ids d))).length = n := by omega
    obtain ⟨ihlen, ihmem, ihcov, ihnd⟩ := ih (argminKey (succAfter ids d)) ht2id ht2len
    have hunf := chainFrom_unfold ids d hwf hnd hdm hne
    refine ⟨?_, ?_, ?_, ?_⟩
    · rw [hunf, List.length_cons, ihlen]
    · intro e he
      rw [hunf, List.mem_cons] at he
      rcases he with h | h
      · rw [h]; exact ⟨ht2id, htgt⟩
      · obtain ⟨h1, h2⟩ := ihmem e h
        exact ⟨h1, lt_trans htgt h2⟩
    · intro e hei hgt
      rw [hunf, List.mem_cons]
      rcases lt_or_eq_of_le (hmin e hei hgt) with h | h
      · exact Or.inr (ihcov e hei h)
      · exact Or.inl (key_inj e _ (hwf e hei) (hwf _ ht2id) h.symm)
    · rw [hunf, List.nodup_cons]
      refine ⟨?_, ihnd⟩
      intro hc
      rcases List.mem_cons.mp hc with h | h
      · rw [← h] at htgt
        omega
      · obtain ⟨-, h2⟩ := ihmem d h
        omega
theorem findLoop_run (ids : List (List Nat))
    (hwf : ∀ x ∈ ids, wfId x) (hcrcv : ∀ x ∈ ids, dallas_crc8 x = 0)
    (hnd : ids.Nodup) (hlen5 : ids.length ≤ 5) :
    ∀ (fuel : Nat) (d : List Nat) (g : SearchGlobals) (j : Int)
      (acc : List (Int × List Nat)),
      d ∈ ids → g.ROM.take 8 = d → okGlobals g →
      g.lastDiscrep = dmark ids d →
      g.doneFlag = decide (dmark ids d = 0) →
      (j + 2) + ((succAfter ids d).length : Int) = (ids.length : Int) →
      (succAfter ids d).length < fuel →
      (FindLoop ids g j acc fuel).2.1 = j + 1 + ((succAfter ids d).length : Int) ∧
      (FindLoop ids g j acc fuel).2.2 = acc ++ idxWrites (j + 1) (d :: chainFrom ids d) ∧
      okGlobals (FindLoop ids g j acc fuel).1 ∧
      (FindLoop ids g j acc fuel).1.lastDiscrep = 0 ∧
      (FindLoop ids g j acc fuel).1.doneFlag = true := by
  intro fuel
  induction fuel with
  | zero =>
    intro d g j acc _ _ _ _ _ _ hf
    exact absurd hf (by omega)
  | succ f ih =>
    intro d g j acc hdm htake hok hld hdone hcount hf
    have hne : ids ≠ [] := List.ne_nil_of_mem hdm
    by_cases hdz : dmark ids d = 0
    · have hsucc : succAfter ids d = [] := succ_empty_of_dmark_zero ids d hdm hdz
      have hslen : (succAfter ids d).length = 0 := by rw [hsucc]; rfl
      have hchain : chainFrom ids d = [] := by rw [chainFrom, hslen]; rfl
      have hNext : Next ids g = (false, { g with lastDiscrep := 0 }) := by
        rw [Next, if_pos (Or.inr (by rw [hdone, hdz]; rfl))]
      rw [FindLoop]
      rw [hNext]
      rw [if_neg (by simp)]
      refine ⟨by dsimp only; rw [hslen]; push_cast; ring, ?_, ?_, rfl, ?_⟩
      · dsimp only
        rw [hchain, htake]
        rfl
      · exact ⟨hok.1, hok.2.1, hok.2.2⟩
      · show g.doneFlag = true
        rw [hdone, hdz]
        rfl
    · have hd1 : 1 ≤ dmark ids d := by omega
      obtain ⟨hSne, ht2id, htgt, hTS, hmin⟩ :=
        succ_target ids d g.ROM hdm (idBit_of_take8 g.ROM d htake) hd1
      have hdonef : g.doneFlag = false := by
        rw [hdone, decide_eq_false hdz]
      have hTS2 : TargetSpec ids g.lastDiscrep g.ROM (argminKey (succAfter ids d)) := by
        rw [hld]
        exact hTS
      obtain ⟨hN1, hNtake, hNld, hNdone, hNok⟩ :=
        Next_finds ids g (argminKey (succAfter ids d)) hne (hwf _ ht2id) hok hdonef hTS2
          (hcrcv _ ht2id)
      have hshrink := succ_shrink ids d (argminKey (succAfter ids d)) hwf hnd ht2id htgt hmin
      have hslen1 : 1 ≤ (succAfter ids d).length := by omega
      have hj5 : j + 1 < 5 := by
        have := hcount
        omega
      rw [FindLoop]
      rw [if_pos (show (Next ids g).1 = true ∧ j + 1 < 5 from ⟨hN1, hj5⟩)]
      have hcount2 : (j + 1 + 2) + ((succAfter ids (argminKey (succAfter ids d))).length : Int)
          = (ids.length : Int) := by omega
      obtain ⟨ih1, ih2, ih3, ih4, ih5⟩ := ih (argminKey (succAfter ids d)) (Next ids g).2
        (j + 1) (acc ++ [(j + 1, g.ROM.take 8)]) ht2id hNtake hNok hNld hNdone hcount2
        (by omega)
      have hchain := chainFrom_unfold ids d hwf hnd hdm hSne
      refine ⟨?_, ?_, ih3, ih4, ih5⟩
      · rw [ih1]
        omega
      · rw [ih2, htake, idxWrites_append_cons, ← hchain]
  
theorem findDevices_run (ids : List (List Nat))
    (hwf : ∀ x ∈ ids, wfId x) (hcrcv : ∀ x ∈ ids, dallas_crc8 x = 0)
    (hnd : ids.Nodup) (hlen5 : ids.length ≤ 5)
    (g : SearchGlobals) (hok : okGlobals g) :
    (FindDevices ids g).2.2 = idxWrites 0 (enumList ids) ∧
    okGlobals (FindDevices ids g).1 := by
  by_cases hne : ids = []
  · subst hne
    rw [FindDevices, if_neg (by rw [busLine]; decide)]
    exact ⟨rfl, hok⟩
  · have hTS := targetSpec_first ids g.ROM hne
    have hmem := argminKey_mem ids hne
    obtain ⟨hN1, hNtake, hNld, hNdone, hNok⟩ :=
      Next_finds ids { g with lastDiscrep := 0, doneFlag := false } (argminKey ids) hne
        (hwf _ hmem) hok rfl hTS (hcrcv _ hmem)
    have hcnt : ids.length = (succAfter ids (argminKey ids)).length + 1 :=
      succ_argmin_len ids hwf hnd hne
    obtain ⟨h1, h2, h3, h4, h5⟩ := findLoop_run ids hwf hcrcv hnd hlen5 7 (argminKey ids)
      (Next ids { g with lastDiscrep := 0, doneFlag := false }).2 (-1) [] hmem hNtake hNok
      hNld hNdone (by push_cast; omega) (by omega)
    rw [FindDevices, if_pos (by rw [busLine_zero ids hne]; rfl)]
    rw [show First ids g = Next ids { g with lastDiscrep := 0, doneFlag := false } from rfl]
    rw [if_pos hN1]
    refine ⟨?_, h3⟩
    rw [h2, enumList, if_neg hne]
    rw [show ((-1 : Int) + 1) = 0 from rfl]
    rfl

theorem enumList_perm (ids : List (List Nat)) (hwf : ∀ x ∈ ids, wfId x)
    (hnd : ids.Nodup) : List.Perm (enumList ids) ids := by
  by_cases hne : ids = []
  · subst hne
    rfl
  · have hmem := argminKey_mem ids hne
    obtain ⟨hlen, hchmem, hcov, hchnd⟩ :=
      chain_facts ids hwf hnd (succAfter ids (argminKey ids)).length (argminKey ids) hmem rfl
    rw [enumList, if_neg hne]
    refine (List.perm_ext_iff_of_nodup hchnd hnd).mpr ?_
    intro e
    rw [List.mem_cons]
    constructor
    · rintro (h | h)
      · rw [h]; exact hmem
      · exact (hchmem e h).1
    · intro hei
      rcases lt_or_eq_of_le (argminKey_le ids e hei) with h | h
      · exact Or.inr (hcov e hei h)
      · exact Or.inl (key_inj e _ (hwf e hei) (hwf _ hmem) h.symm)

/-- C1 (corrected): for a bus of at most five distinct well-formed
identifiers each carrying a valid Dallas CRC, FindDevices started from the
module initial state returns a table with exactly one row per device, equal
as a set to the bus, and an immediately repeated run returns the identical
table.  The CRC-validity hypothesis is necessary: see the counterexample. -/
theorem findDevices_discovers (ids : List (List Nat))
    (hwf : ∀ x ∈ ids, wfId x) (hcrcv : ∀ x ∈ ids, dallas_crc8 x = 0)
    (hnd : ids.Nodup) (hlen5 : ids.length ≤ 5) :
    (foundTable (FindDevices ids initGlobals)).length = ids.length ∧
    (∀ d, d ∈ foundTable (FindDevices ids initGlobals) ↔ d ∈ ids) ∧
    foundTable (FindDevices ids (FindDevices ids initGlobals).1) =
      foundTable (FindDevices ids initGlobals) := by
  have hok0 : okGlobals initGlobals := ⟨rfl, by decide, rfl⟩
  obtain ⟨hw1, hg1⟩ := findDevices_run ids hwf hcrcv hnd hlen5 initGlobals hok0
  obtain ⟨hw2, -⟩ := findDevices_run ids hwf hcrcv hnd hlen5 _ hg1
  have htab : foundTable (FindDevices ids initGlobals) = enumList ids := by
    rw [foundTable, hw1, idxWrites_map_snd]
  have htab2 : foundTable (FindDevices ids (FindDevices ids initGlobals).1) = enumList ids := by
    rw [foundTable, hw2, idxWrites_map_snd]
  have hperm := enumList_perm ids hwf hnd
  refine ⟨?_, ?_, ?_⟩
  · rw [htab, hperm.length_eq]
  · intro d
    rw [htab]
    exact ⟨fun h => hperm.mem_iff.mp h, fun h => hperm.mem_iff.mpr h⟩
  · rw [htab, htab2]

/-- C1 witness: the corrected theorem instantiated on a concrete bus of two
distinct CRC-valid identifiers. -/
theorem findDevices_discovers_witness :
    (foundTable (FindDevices pairValidBus initGlobals)).length = pairValidBus.length ∧
    (∀ d, d ∈ foundTable (FindDevices pairValidBus initGlobals) ↔ d ∈ pairValidBus) ∧
    foundTable (FindDevices pairValidBus (FindDevices pairValidBus initGlobals).1) =
      foundTable (FindDevices pairValidBus initGlobals) :=
  findDevices_discovers pairValidBus
    (by intro x hx; fin_cases hx <;> exact ⟨rfl, by decide⟩)
    (by decide) (by decide) (by decide)

/-- C1 counterexample: a bus exposing one distinct identifier whose Dallas
CRC byte is not stored correctly (the model CRC of the id is nonzero, so it
can never equal the zero-initialized 9th ROM cell) yields an EMPTY table,
not a one-entry table: the claim is false without the CRC-validity
hypothesis added in the correction. -/
theorem findDevices_discovers_cex :
    foundTable (FindDevices [[1, 0, 0, 0, 0, 0, 0, 0]] initGlobals) = [] ∧
    ([[1, 0, 0, 0, 0, 0, 0, 0]] : List (List Nat)).length = 1 := by
  constructor
  · decide
  · rfl

theorem foldl_range_const {α : Type} (f : α → α) :
    ∀ (n : Nat) (s : α), (List.range n).foldl (fun p _ => f p) s = f^[n] s := by
  intro n
  induction n with
  | zero => intro s; rfl
  | succ n ih =>
    intro s
    rw [List.range_succ, List.foldl_append, ih, Function.iterate_succ_apply' f n s]
    rfl

theorem crc8_byte_eq_iterate (c x : Nat) :
    crc8_byte c x = (crc8_round^[8] (c, x)).1 := by
  rw [crc8_byte, foldl_range_const]

theorem crcRounds_snd : ∀ (n c x : Nat), (crc8_round^[n] (c, x)).2 = x >>> n := by
  intro n
  induction n with
  | zero => intro c x; rfl
  | succ n ih =>
    intro c x
    rw [Function.iterate_succ_apply']
    show (crc8_round^[n] (c, x)).2 >>> 1 = x >>> (n + 1)
    rw [ih, Nat.shiftRight_add]

theorem crcRounds_congr : ∀ (n c x y : Nat),
    (∀ i, i < n → x.testBit i = y.testBit i) →
    (crc8_round^[n] (c, x)).1 = (crc8_round^[n] (c, y)).1 := by
  intro n
  induction n with
  | zero => intro c x y _; rfl
  | succ n ih =>
    intro c x y hagree
    rw [Function.iterate_succ_apply, Function.iterate_succ_apply]
    have hmix : (c ^^^ x) &&& 1 = (c ^^^ y) &&& 1 := by
      rw [Nat.and_one_is_mod, Nat.and_one_is_mod]
      have h1 : (c ^^^ x).testBit 0 = (c ^^^ y).testBit 0 := by
        rw [Nat.testBit_xor, Nat.testBit_xor, hagree 0 (by omega)]
      rw [Nat.testBit_to_div_mod, Nat.testBit_to_div_mod] at h1
      simp only [pow_zero, Nat.div_one, decide_eq_decide] at h1
      omega
    have hstepx : crc8_round (c, x) =
        ((if (c ^^^ x) &&& 1 ≠ 0 then (c >>> 1) ^^^ 0x8C else c >>> 1), x >>> 1) := rfl
    have hstepy : crc8_round (c, y) =
        ((if (c ^^^ y) &&& 1 ≠ 0 then (c >>> 1) ^^^ 0x8C else c >>> 1), y >>> 1) := rfl
    rw [hstepx, hstepy, hmix]
    refine ih _ _ _ (fun i hi => ?_)
    rw [Nat.testBit_shiftRight, Nat.testBit_shiftRight]
    exact hagree (1 + i) (by omega)

theorem crc8_round_flip_last (c7 : Nat) :
    (crc8_round (c7, 1)).1 = (crc8_round (c7, 0)).1 ^^^ 0x8C := by
  have h0 : (crc8_round (c7, 0)).1 =
      if c7 &&& 1 ≠ 0 then (c7 >>> 1) ^^^ 0x8C else c7 >>> 1 := by
    show (if (c7 ^^^ 0) &&& 1 ≠ 0 then (c7 >>> 1) ^^^ 0x8C else c7 >>> 1) = _
    rw [Nat.xor_zero]
  have h1 : (crc8_round (c7, 1)).1 =
      if (c7 ^^^ 1) &&& 1 ≠ 0 then (c7 >>> 1) ^^^ 0x8C else c7 >>> 1 := rfl
  have hx : (c7 ^^^ 1) &&& 1 = (c7 &&& 1) ^^^ 1 := by
    rw [Nat.and_xor_distrib_right, (by decide : (1 : Nat) &&& 1 = 1)]
  have hm := Nat.and_one_is_mod c7
  rcases Nat.mod_two_eq_zero_or_one c7 with h | h
  · rw [h0, h1, hx, hm, h, if_pos (show (0 : Nat) ^^^ 1 ≠ 0 by decide),
      if_neg (show ¬ ((0 : Nat) ≠ 0) by decide)]
  · rw [h0, h1, hx, hm, h, if_neg (show ¬ ((1 : Nat) ^^^ 1 ≠ 0) by decide),
      if_pos (show (1 : Nat) ≠ 0 by decide)]
    rw [Nat.xor_assoc, Nat.xor_self, Nat.xor_zero]

theorem crc8_byte_flip (c x : Nat) (hx : x < 256) (hbit : x.testBit 7 = false) :
    crc8_byte c (x ||| 128) = crc8_byte c x ^^^ 0x8C := by
  have h128 : (128 : Nat) = 2 ^ 7 := by norm_num
  have hx128 : x < 128 := by
    rw [Nat.testBit_to_div_mod] at hbit
    have hb2 : ¬ (x / 2 ^ 7 % 2 = 1) := of_decide_eq_false hbit
    have h27 : (2 : Nat) ^ 7 = 128 := by norm_num
    rw [h27] at hb2
    omega
  have hcongr : (crc8_round^[7] (c, x ||| 128)).1 = (crc8_round^[7] (c, x)).1 := by
    refine crcRounds_congr 7 c (x ||| 128) x (fun i hi => ?_)
    rw [Nat.testBit_or]
    have hb : (128 : Nat).testBit i = false := by
      rw [h128, Nat.testBit_two_pow]
      exact decide_eq_false (by omega)
    rw [hb, Bool.or_false]
  have hsndx : (crc8_round^[7] (c, x)).2 = 0 := by
    rw [crcRounds_snd, Nat.shiftRight_eq_div_pow]
    have h27 : (2 : Nat) ^ 7 = 128 := by norm_num
    rw [h27]
    omega
  have hsndf : (crc8_round^[7] (c, x ||| 128)).2 = 1 := by
    rw [crcRounds_snd, Nat.shiftRight_eq_div_pow]
    have hge : 128 ≤ x ||| 128 := by
      have ht : (x ||| 128).testBit 7 = true := by
        rw [h128]
        exact testBit_or_pow x 7
      have := Nat.testBit_implies_ge ht
      have h27 : (2 : Nat) ^ 7 = 128 := by norm_num
      rw [h27] at this
      exact this
    have hlt : x ||| 128 < 256 := by
      have hx8 : x < 2 ^ 8 := lt_of_lt_of_le hx (by norm_num)
      have h1288 : (128 : Nat) < 2 ^ 8 := by norm_num
      exact lt_of_lt_of_le (Nat.or_lt_two_pow hx8 h1288) (by norm_num)
    have h27 : (2 : Nat) ^ 7 = 128 := by norm_num
    rw [h27]
    omega
  have hpair1 : crc8_round^[7] (c, x ||| 128) = ((crc8_round^[7] (c, x)).1, 1) :=
    Prod.ext hcongr hsndf
  have hpair2 : crc8_round^[7] (c, x) = ((crc8_round^[7] (c, x)).1, 0) :=
    Prod.ext rfl hsndx
  have hLHS : (crc8_round^[8] (c, x ||| 128)).1 =
      (crc8_round ((crc8_round^[7] (c, x)).1, 1)).1 := by
    rw [show (8 : Nat) = 7 + 1 from rfl, Function.iterate_succ_apply', hpair1]
  have hRHS : (crc8_round^[8] (c, x)).1 =
      (crc8_round ((crc8_round^[7] (c, x)).1, 0)).1 := by
    rw [show (8 : Nat) = 7 + 1 from rfl, Function.iterate_succ_apply']
    conv_lhs => rw [hpair2]
  rw [crc8_byte_eq_iterate, crc8_byte_eq_iterate, hLHS, hRHS]
  exact crc8_round_flip_last (crc8_round^[7] (c, x)).1

theorem dallas_crc8_flip (a : List Nat) (ha : a.length = 8)
    (hx : a.getD 7 0 < 256) (hbit : (a.getD 7 0).testBit 7 = false) :
    dallas_crc8 (a.set 7 (a.getD 7 0 ||| 128)) = dallas_crc8 a ^^^ 0x8C := by
  have hset : a.set 7 (a.getD 7 0 ||| 128) =
      a.take 7 ++ (a.getD 7 0 ||| 128) :: a.drop 8 := by
    rw [List.set_eq_take_append_cons_drop, if_pos (by omega)]
  have hdrop8 : a.drop 8 = [] := List.drop_eq_nil_of_le (by omega)
  have hdrop7 : a.drop 7 = [a.getD 7 0] := by
    rw [List.drop_eq_getElem_cons (by omega), hdrop8,
      List.getD_eq_getElem a 0 (by omega)]
  have hsplit : a = a.take 7 ++ [a.getD 7 0] := by
    conv_lhs => rw [← List.take_append_drop 7 a]
    rw [hdrop7]
  rw [hset, hdrop8]
  conv_rhs => rw [hsplit]
  rw [dallas_crc8, dallas_crc8, List.foldl_append, List.foldl_append]
  simp only [List.foldl_cons, List.foldl_nil]
  exact crc8_byte_flip _ _ hx hbit

theorem Next_fails (ids : List (List Nat)) (g : SearchGlobals) (t : List Nat)
    (hne : ids ≠ []) (hwt : wfId t)
    (hok : okGlobals g) (hdone : g.doneFlag = false)
    (hT : TargetSpec ids g.lastDiscrep g.ROM t)
    (hcrc : dallas_crc8 t ≠ 0) :
    (Next ids g).1 = false ∧ (Next ids g).2.lastDiscrep = 0 := by
  have hI := passInv_run ids g.lastDiscrep g.ROM t hT 64 0 (initPass ids g)
    (passInv_init ids g t hok) (by omega)
  rw [show (0 + 64) = 64 from rfl] at hI
  have htake : (searchRun g.lastDiscrep (initPass ids g) 64).ROM.take 8 = t :=
    take8_eq_target _ t hI.hlen hI.hbytes hwt (fun j hj => hI.hbits_lo j (by omega))
  have hcell : (searchRun g.lastDiscrep (initPass ids g) 64).ROM.getD 8 0 = 0 := by
    rw [hI.hcell8]
    exact hok.2.2
  rw [Next, if_neg (by rw [busLine_zero ids hne, hdone]; simp [reset_pulse])]
  dsimp only
  rw [if_pos (Or.inr (by rw [htake, hcell]; exact hcrc))]
  exact ⟨rfl, rfl⟩

theorem idBit_flip_lo (a : List Nat) (ha : a.length = 8) (j : Nat) (hj : j < 63) :
    idBit (a.set 7 (a.getD 7 0 ||| 128)) j = idBit a j := by
  rw [idBit, idBit]
  by_cases hj7 : j / 8 = 7
  · rw [hj7, getD_set_self_poly a 7 _ 0 (by omega)]
    rw [show (128 : Nat) = 2 ^ 7 from by norm_num]
    rw [testBit_or_pow_ne _ 7 (j % 8) (by omega)]
  · rw [getD_set_ne_poly a 7 (j / 8) _ 0 hj7]

theorem idBit_flip_hi (a : List Nat) (ha : a.length = 8) :
    idBit (a.set 7 (a.getD 7 0 ||| 128)) 63 = true := by
  rw [idBit, show (63 / 8 : Nat) = 7 from rfl, show (63 % 8 : Nat) = 7 from rfl]
  rw [getD_set_self_poly a 7 _ 0 (by omega)]
  rw [show (128 : Nat) = 2 ^ 7 from by norm_num]
  exact testBit_or_pow _ 7

theorem idBit_hi_of_clear (a : List Nat) (hbit : (a.getD 7 0).testBit 7 = false) :
    idBit a 63 = false := by
  rw [idBit, show (63 / 8 : Nat) = 7 from rfl, show (63 % 8 : Nat) = 7 from rfl]
  exact hbit

theorem key_flip_lt (a : List Nat) (ha : a.length = 8)
    (hbit : (a.getD 7 0).testBit 7 = false) :
    key a < key (a.set 7 (a.getD 7 0 ||| 128)) := by
  refine key_lt_of_branch a _ 63 (by omega) ?_ (idBit_hi_of_clear a hbit)
    (idBit_flip_hi a ha)
  rw [agreesBelow_iff]
  intro j hj
  exact (idBit_flip_lo a ha j hj).symm

theorem wfId_flip (a : List Nat) (hwf : wfId a) :
    wfId (a.set 7 (a.getD 7 0 ||| 128)) := by
  refine ⟨by rw [List.length_set, hwf.1], ?_⟩
  intro y hy
  rcases List.mem_or_eq_of_mem_set hy with h | h
  · exact hwf.2 y h
  · rw [h]
    have ha8 : a.length = 8 := hwf.1
    have h7m : a.getD 7 0 ∈ a := by
      rw [List.getD_eq_getElem a 0 (by omega)]
      exact List.getElem_mem _
    have hx8 : a.getD 7 0 < 2 ^ 8 := lt_of_lt_of_le (hwf.2 _ h7m) (by norm_num)
    exact lt_of_lt_of_le (Nat.or_lt_two_pow hx8 (by norm_num)) (by norm_num)

theorem flip_ne (a : List Nat) (ha : a.length = 8)
    (hbit : (a.getD 7 0).testBit 7 = false) :
    a ≠ a.set 7 (a.getD 7 0 ||| 128) := by
  intro h
  have hb : (a.set 7 (a.getD 7 0 ||| 128)).getD 7 0 = a.getD 7 0 ||| 128 :=
    getD_set_self_poly a 7 _ 0 (by omega)
  have h2 : (a.getD 7 0).testBit 7 = ((a.set 7 (a.getD 7 0 ||| 128)).getD 7 0).testBit 7 := by
    rw [← h]
  rw [hb, show (128 : Nat) = 2 ^ 7 from by norm_num, testBit_or_pow, hbit] at h2
  exact Bool.false_ne_true h2

theorem argmin_pair (a b : List Nat) (hkey : key a < key b) :
    argminKey [a, b] = a := by
  show (if key a ≤ key (argminKey [b]) then a else argminKey [b]) = a
  rw [show argminKey [b] = b from rfl, if_pos (le_of_lt hkey)]

theorem succAfter_pair (a b : List Nat) (hkey : key a < key b) :
    succAfter [a, b] a = [b] := by
  simp [succAfter, List.filter_cons, hkey]

/-- C10 (corrected): for two well-formed devices whose identifiers differ
only in the final search bit (bit 7 of byte 7), discovery terminates but
finds only ONE of them: validation compares the CRC of the 8 assembled
bytes against the out-of-array 9th ROM cell (always 0), the two ids cannot
both have a zero Dallas CRC (they differ by an XOR of 0x8C), so when the
lower-keyed id a is CRC-valid, First discovers a, the next Next call fails
validation on the partner id and resets lastDiscrepancy to 0, and the
FindDevices table holds exactly the single row a. -/
theorem pair_final_bit (a : List Nat) (hwf : wfId a)
    (hbit : (a.getD 7 0).testBit 7 = false) (hcrc : dallas_crc8 a = 0) :
    dallas_crc8 (a.set 7 (a.getD 7 0 ||| 128)) ≠ 0 ∧
    (First [a, a.set 7 (a.getD 7 0 ||| 128)] initGlobals).1 = true ∧
    (First [a, a.set 7 (a.getD 7 0 ||| 128)] initGlobals).2.ROM.take 8 = a ∧
    (Next [a, a.set 7 (a.getD 7 0 ||| 128)]
      (First [a, a.set 7 (a.getD 7 0 ||| 128)] initGlobals).2).1 = false ∧
    (Next [a, a.set 7 (a.getD 7 0 ||| 128)]
      (First [a, a.set 7 (a.getD 7 0 ||| 128)] initGlobals).2).2.lastDiscrep = 0 ∧
    foundTable (FindDevices [a, a.set 7 (a.getD 7 0 ||| 128)] initGlobals) = [a] := by
  have ha8 : a.length = 8 := hwf.1
  have h7m : a.getD 7 0 ∈ a := by
    rw [List.getD_eq_getElem a 0 (by omega)]
    exact List.getElem_mem _
  have hcrcb : dallas_crc8 (a.set 7 (a.getD 7 0 ||| 128)) ≠ 0 := by
    rw [dallas_crc8_flip a ha8 (hwf.2 _ h7m) hbit, hcrc]
    decide
  have hwb : wfId (a.set 7 (a.getD 7 0 ||| 128)) := wfId_flip a hwf
  have hkey : key a < key (a.set 7 (a.getD 7 0 ||| 128)) := key_flip_lt a ha8 hbit
  have hne : ([a, a.set 7 (a.getD 7 0 ||| 128)] : List (List Nat)) ≠ [] := by
    simp
  have hok0 : okGlobals initGlobals := ⟨rfl, by decide, rfl⟩
  have hTfirst : TargetSpec [a, a.set 7 (a.getD 7 0 ||| 128)] 0 initGlobals.ROM a := by
    have h := targetSpec_first [a, a.set 7 (a.getD 7 0 ||| 128)] initGlobals.ROM hne
    rwa [argmin_pair a _ hkey] at h
  obtain ⟨hF1, hFtake, hFld, hFdone, hFok⟩ :=
    Next_finds [a, a.set 7 (a.getD 7 0 ||| 128)]
      { initGlobals with lastDiscrep := 0, doneFlag := false } a hne hwf hok0 rfl
      hTfirst hcrc
  have hfeq : First [a, a.set 7 (a.getD 7 0 ||| 128)] initGlobals =
      Next [a, a.set 7 (a.getD 7 0 ||| 128)]
        { initGlobals with lastDiscrep := 0, doneFlag := false } := rfl
  rw [← hfeq] at hF1 hFtake hFld hFdone hFok
  have hsuccp : succAfter [a, a.set 7 (a.getD 7 0 ||| 128)] a =
      [a.set 7 (a.getD 7 0 ||| 128)] := succAfter_pair a _ hkey
  have hdm1 : 1 ≤ dmark [a, a.set 7 (a.getD 7 0 ||| 128)] a := by
    have h := dmark_pos_of_succ_ne [a, a.set 7 (a.getD 7 0 ||| 128)] a
      (List.mem_cons_self _ _) (by rw [hsuccp]; simp)
    omega
  obtain ⟨-, -, -, hTS2, -⟩ :=
    succ_target [a, a.set 7 (a.getD 7 0 ||| 128)] a
      (First [a, a.set 7 (a.getD 7 0 ||| 128)] initGlobals).2.ROM
      (List.mem_cons_self _ _) (idBit_of_take8 _ a hFtake) hdm1
  rw [hsuccp] at hTS2
  rw [show argminKey [a.set 7 (a.getD 7 0 ||| 128)] = a.set 7 (a.getD 7 0 ||| 128)
    from rfl] at hTS2
  have hdonef : (First [a, a.set 7 (a.getD 7 0 ||| 128)] initGlobals).2.doneFlag = false := by
    rw [hFdone, decide_eq_false (by omega)]
  have hTS2x : TargetSpec [a, a.set 7 (a.getD 7 0 ||| 128)]
      (First [a, a.set 7 (a.getD 7 0 ||| 128)] initGlobals).2.lastDiscrep
      (First [a, a.set 7 (a.getD 7 0 ||| 128)] initGlobals).2.ROM
      (a.set 7 (a.getD 7 0 ||| 128)) := by
    rw [hFld]
    exact hTS2
  obtain ⟨hN2f, hN2ld⟩ :=
    Next_fails [a, a.set 7 (a.getD 7 0 ||| 128)]
      (First [a, a.set 7 (a.getD 7 0 ||| 128)] initGlobals).2
      (a.set 7 (a.getD 7 0 ||| 128)) hne hwb hFok hdonef hTS2x hcrcb
  refine ⟨hcrcb, hF1, hFtake, hN2f, hN2ld, ?_⟩
  rw [FindDevices, if_pos (by rw [busLine_zero _ hne]; rfl)]
  rw [if_pos hF1]
  rw [show (7 : Nat) = 6 + 1 from rfl, FindLoop]
  rw [if_neg (by rw [hN2f]; simp)]
  show List.map _ ([] ++ [((-1 : Int) + 1,
      (First [a, a.set 7 (a.getD 7 0 ||| 128)] initGlobals).2.ROM.take 8)]) = [a]
  rw [hFtake]
  rfl

/-- C10 witness: the corrected pair theorem instantiated at the all-zero
identifier and its final-bit partner. -/
theorem pair_final_bit_witness :
    dallas_crc8 (zerosId.set 7 (zerosId.getD 7 0 ||| 128)) ≠ 0 ∧
    (First [zerosId, zerosId.set 7 (zerosId.getD 7 0 ||| 128)] initGlobals).1 = true ∧
    (First [zerosId, zerosId.set 7 (zerosId.getD 7 0 ||| 128)]
      initGlobals).2.ROM.take 8 = zerosId ∧
    (Next [zerosId, zerosId.set 7 (zerosId.getD 7 0 ||| 128)]
      (First [zerosId, zerosId.set 7 (zerosId.getD 7 0 ||| 128)] initGlobals).2).1 = false ∧
    (Next [zerosId, zerosId.set 7 (zerosId.getD 7 0 ||| 128)]
      (First [zerosId, zerosId.set 7 (zerosId.getD 7 0 ||| 128)]
        initGlobals).2).2.lastDiscrep = 0 ∧
    foundTable (FindDevices [zerosId, zerosId.set 7 (zerosId.getD 7 0 ||| 128)]
      initGlobals) = [zerosId] :=
  pair_final_bit zerosId ⟨rfl, by decide⟩ (by decide) (by decide)
end DS18B20
